import Mathlib

/-!
A shallow embedding of the Markdown-processing pipeline of `src/app.py`
(the Notion-Markdown-to-ChatGPT converter).  Python strings are modelled as
`List Char`, Python integers as `Nat` or `Int` (chunk offsets can go
negative, so those are `Int`).  Each definition mirrors one Python function
or regular expression of the source; regex scanners that advance by more
than one character per step take an explicit fuel argument that is always
called with at least the input length, which makes them exact.
-/

namespace App

/-- View a string literal as the character-list representation used
throughout this development. -/
def str (s : String) : List Char := s.toList

/-- The backtick character (written via its code point). -/
def btick : Char := Char.ofNat 96

/-- Python/regex whitespace (`str.strip`, `\s`) on the ASCII range. -/
def isPyWs (c : Char) : Bool :=
  c = ' ' || c = '\t' || c = '\n' || c = '\r' || c = '\x0b' || c = '\x0c'

/-- Regex `\w` on ASCII text: letters, digits, underscore. -/
def isWordChar (c : Char) : Bool := c.isAlpha || c.isDigit || c = '_'

/-- Remove the trailing run of characters satisfying `p`. -/
def dropEndP (p : Char → Bool) (l : List Char) : List Char :=
  (l.reverse.dropWhile p).reverse

/-- Python `str.strip()` (whitespace on both ends). -/
def pyStrip (s : List Char) : List Char := dropEndP isPyWs (s.dropWhile isPyWs)

/-- Python `str.strip("_")`, used by the table-key normalizer. -/
def stripUnderscores (s : List Char) : List Char :=
  dropEndP (fun c => c = '_') (s.dropWhile (fun c => c = '_'))

/-- Replace every maximal run of characters satisfying `p` by the single
character `r` (the effect of `re.sub(CLASS+ , r, s)` for a character
class).  `prev` records whether the previous character was in a run. -/
def collapseRunsAux (p : Char → Bool) (r : Char) (prev : Bool) : List Char → List Char
  | [] => []
  | c :: cs =>
    if p c then
      if prev then collapseRunsAux p r true cs
      else r :: collapseRunsAux p r true cs
    else c :: collapseRunsAux p r false cs

/-- `re.sub(r"\s+", " ", s)` / `re.sub(r"[^\w]+", "_", s)`-style collapse. -/
def collapseRuns (p : Char → Bool) (r : Char) (s : List Char) : List Char :=
  collapseRunsAux p r false s

/-- Models `unicodedata.normalize("NFKD", c)` followed by
`encode("ascii", "ignore")` for the characters this repository's data
uses: ASCII characters are unchanged, accented Latin letters (the
Hungarian alphabet) decompose into their base letter plus a combining
mark that the ASCII encode discards, and any other non-ASCII character
is discarded entirely. -/
def asciiFold (c : Char) : List Char :=
  if c.toNat < 128 then [c] else
  match c with
  | 'á' => ['a'] | 'é' => ['e'] | 'í' => ['i'] | 'ó' => ['o'] | 'ö' => ['o']
  | 'ő' => ['o'] | 'ú' => ['u'] | 'ü' => ['u'] | 'ű' => ['u']
  | 'Á' => ['A'] | 'É' => ['E'] | 'Í' => ['I'] | 'Ó' => ['O'] | 'Ö' => ['O']
  | 'Ő' => ['O'] | 'Ú' => ['U'] | 'Ü' => ['U'] | 'Ű' => ['U']
  | _ => []

/-- `normalize` of `app.py` (lines 25-34): NFKD-decompose and drop
non-ASCII, then `strip`, then `lower`, then replace every character that
is neither `\w` nor `\s` by a space, then collapse whitespace runs to a
single space.  Note the order: the `strip` happens before punctuation is
turned into spaces. -/
def normalize (s : List Char) : List Char :=
  collapseRuns isPyWs ' '
    (((pyStrip ((s.map asciiFold).flatten)).map Char.toLower).map
      (fun c => if isWordChar c || isPyWs c then c else ' '))


/-- Lines of a document.  A `Line` never contains a newline character. -/
abbrev Line := List Char

/-- Python `s.split(sep)` for a single-character separator: keeps empty
pieces, including a trailing one. -/
def splitOnChar (sep : Char) : List Char → List (List Char)
  | [] => [[]]
  | c :: cs =>
    if c = sep then [] :: splitOnChar sep cs
    else
      match splitOnChar sep cs with
      | [] => [[c]]
      | h :: t => (c :: h) :: t

/-- Python `s.split("\n")`. -/
def splitNl (s : List Char) : List (List Char) := splitOnChar '\n' s

/-- Python `s.splitlines()` restricted to `\n` line endings: like
`split("\n")` but empty input gives no lines and a trailing newline does
not produce a trailing empty line. -/
def splitlines (s : List Char) : List Line :=
  if s = [] then []
  else if s.getLast? = some '\n' then (splitNl s).dropLast
  else splitNl s

/-- Python `"\n".join(lines)`. -/
def joinNl : List (List Char) → List Char
  | [] => []
  | [l] => l
  | l :: ls => l ++ '\n' :: joinNl ls

/-- Python `"\n\n".join(paragraphs)`. -/
def joinPP : List (List Char) → List Char
  | [] => []
  | [p] => p
  | p :: ps => p ++ '\n' :: '\n' :: joinPP ps

/-- Boolean list-prefix test (`needle` begins `hay`). -/
def startsWith : List Char → List Char → Bool
  | [], _ => true
  | _ :: _, [] => false
  | a :: xs, b :: ys => a = b && startsWith xs ys

/-- Python substring test `needle in hay`. -/
def containsSub (needle hay : List Char) : Bool :=
  hay.tails.any (fun t => startsWith needle t)

/-- Worker for `pyWords`; each step consumes at least one character, so
fuel at least the input length makes it exact. -/
def pyWordsGo : Nat → List Char → List (List Char)
  | 0, _ => []
  | _ + 1, [] => []
  | fuel + 1, c :: cs =>
    if isPyWs c then pyWordsGo fuel cs
    else (c :: cs.takeWhile (fun d => !isPyWs d)) :: pyWordsGo fuel (cs.dropWhile (fun d => !isPyWs d))

/-- Python `s.split()` (no separator): whitespace-delimited words,
empties dropped. -/
def pyWords (s : List Char) : List (List Char) := pyWordsGo s.length s

/-- `HEADING_RE = ^(#+)\s+(.*)$` (app.py line 70).  Returns the heading
level (group-1 length) and group 2, the text after the maximal
whitespace run following the hashes. -/
def headingMatch (ln : Line) : Option (Nat × List Char) :=
  let hashes := ln.takeWhile (fun c => c = '#')
  let rest := ln.dropWhile (fun c => c = '#')
  match hashes.length, rest with
  | 0, _ => none
  | _ + 1, [] => none
  | k + 1, c :: cs =>
    if isPyWs c then some (k + 1, (c :: cs).dropWhile isPyWs) else none

/-- A section of `split_markdown_sections`: `(level, title, body lines)`. -/
abbrev Sec := Nat × List Char × List Line

/-- The `flush()` helper of `split_markdown_sections`: emits the current
section if a title is present (the level is always set alongside the
title, `current_level or 0` therefore equals it). -/
def flushSec : Option (Nat × List Char) → List Line → List Sec
  | none, _ => []
  | some (lvl, title), buf => [(lvl, title, buf)]

/-- The line loop of `split_markdown_sections` (app.py lines 72-102).
`cur` is the current `(level, title)` (`none` before any content),
`buf` the accumulated body lines. -/
def smsLoop (cur : Option (Nat × List Char)) (buf : List Line) : List Line → List Sec
  | [] => flushSec cur buf
  | ln :: ls =>
    match headingMatch ln with
    | some (lvl, g2) => flushSec cur buf ++ smsLoop (some (lvl, pyStrip g2)) [] ls
    | none =>
      match cur with
      | none => smsLoop (some (0, [])) [ln] ls
      | some c => smsLoop (some c) (buf ++ [ln]) ls

/-- `split_markdown_sections` (app.py lines 72-102). -/
def split_markdown_sections (md : List Char) : List Sec :=
  smsLoop none [] (splitlines md)

/-- `DEFAULT_VIDEO_LABELS` (app.py lines 107-110). -/
def DEFAULT_VIDEO_LABELS : List (List Char) :=
  [str "videó szöveg", str "video szoveg", str "videó leirat", str "video leirat",
   str "transcript", str "videó", str "video"]

/-- `DEFAULT_LESSON_LABELS` (app.py lines 111-113). -/
def DEFAULT_LESSON_LABELS : List (List Char) :=
  [str "lecke szöveg", str "lecke anyag", str "leckeszöveg", str "tananyag"]

/-- One phrase of `label_match`: every non-empty whitespace token of the
normalized phrase must be a substring of the normalized title. -/
def phraseOk (tnorm raw : List Char) : Bool :=
  (pyWords (normalize raw)).all (fun tok => tok.isEmpty || containsSub tok tnorm)

/-- The phrase loop of `label_match` (returns at the first phrase that
matches). -/
def labelLoop (tnorm : List Char) : List (List Char) → Bool
  | [] => false
  | raw :: rest => if phraseOk tnorm raw then true else labelLoop tnorm rest

/-- `label_match` (app.py lines 115-124). -/
def label_match (title : List Char) (target_tokens : List (List Char)) : Bool :=
  labelLoop (normalize title) target_tokens

/-- `text_of` inside `choose_section`: joined body lines, stripped. -/
def textOf (sec : Sec) : List Char := pyStrip (joinNl sec.2.2)

/-- The candidate-collection loop of `choose_section`: sections in the
level range go to the video list if a video label matches, otherwise to
the lesson list if a lesson label matches. -/
def collectCands (vl ll : List (List Char)) (mn mx : Nat) : List Sec → List Sec × List Sec
  | [] => ([], [])
  | s :: rest =>
    let (vs, ls) := collectCands vl ll mn mx rest
    if mn ≤ s.1 ∧ s.1 ≤ mx then
      if label_match s.2.1 vl then (s :: vs, ls)
      else if label_match s.2.1 ll then (vs, s :: ls)
      else (vs, ls)
    else (vs, ls)

/-- First candidate whose stripped body text is non-empty. -/
def firstNonempty : List Sec → Option Sec
  | [] => none
  | s :: rest => if textOf s ≠ [] then some s else firstNonempty rest

/-- `choose_section` (app.py lines 126-159): first non-empty video
candidate, else first non-empty lesson candidate, else
`("none", "", "")`.  Returns `(selected_section, text, heading)`. -/
def choose_section (sections : List Sec) (video_labels lesson_labels : List (List Char))
    (min_level max_level : Nat) : List Char × List Char × List Char :=
  let (vs, ls) := collectCands video_labels lesson_labels min_level max_level sections
  match firstNonempty vs with
  | some s => (str "video", textOf s, s.2.1)
  | none =>
    match firstNonempty ls with
    | some s => (str "lecke", textOf s, s.2.1)
    | none => (str "none", [], [])


/-- Line test for the fence regex `^\s*` followed by three backticks
(`re.match` in `renumber_ordered_lists`, `strip_bold_emphasis`,
`split_by_paragraph`). -/
def fenceLine (l : Line) : Bool :=
  startsWith (str "```") (l.dropWhile isPyWs)

/-- Pass 1 of `clean_markdown`: `re.sub(r"^(#+)([^\s#])", r"\1 \2", md,
flags=re.M)` acts once per line (anchored at the line start): insert a
space between a leading hash run and a following non-space, non-hash
character. -/
def headingSpaceLine (l : Line) : Line :=
  let hashes := l.takeWhile (fun c => c = '#')
  let rest := l.dropWhile (fun c => c = '#')
  match hashes.length, rest with
  | 0, _ => l
  | _ + 1, [] => l
  | k + 1, c :: cs =>
    if !isPyWs c && c ≠ '#' then List.replicate (k + 1) '#' ++ ' ' :: c :: cs else l

/-- Pass 2 of `clean_markdown`: `re.sub(r"(\n#+\s)", r"\n\n\1", md)`.
A newline followed by a hash run and one whitespace character gets two
newlines inserted before it; scanning resumes after the match. -/
def blankBeforeHeading : Nat → List Char → List Char
  | 0, s => s
  | _ + 1, [] => []
  | fuel + 1, c :: rest =>
    if c = '\n' then
      let hashes := rest.takeWhile (fun d => d = '#')
      let r2 := rest.dropWhile (fun d => d = '#')
      match hashes.length, r2 with
      | k + 1, w :: r3 =>
        if isPyWs w then
          '\n' :: '\n' :: '\n' :: (List.replicate (k + 1) '#' ++ w :: blankBeforeHeading fuel r3)
        else '\n' :: blankBeforeHeading fuel rest
      | _, _ => '\n' :: blankBeforeHeading fuel rest
    else c :: blankBeforeHeading fuel rest

/-- Pass 3 of `clean_markdown`: `re.sub(r"(\n>\s)", r"\n\n\1", md)`. -/
def blankBeforeQuote : Nat → List Char → List Char
  | 0, s => s
  | _ + 1, [] => []
  | fuel + 1, c :: rest =>
    if c = '\n' then
      match rest with
      | '>' :: w :: r3 =>
        if isPyWs w then '\n' :: '\n' :: '\n' :: '>' :: w :: blankBeforeQuote fuel r3
        else '\n' :: blankBeforeQuote fuel rest
      | _ => '\n' :: blankBeforeQuote fuel rest
    else c :: blankBeforeQuote fuel rest

/-- Pass 4 of `clean_markdown`: `re.sub(r"\n{3,}", "\n\n", md)` — every
maximal newline run of length at least three becomes exactly two. -/
def collapseNls : Nat → List Char → List Char
  | 0, s => s
  | _ + 1, [] => []
  | fuel + 1, c :: rest =>
    if c = '\n' then
      let k := 1 + (rest.takeWhile (fun d => d = '\n')).length
      let r2 := rest.dropWhile (fun d => d = '\n')
      if k ≥ 3 then '\n' :: '\n' :: collapseNls fuel r2
      else List.replicate k '\n' ++ collapseNls fuel r2
    else c :: collapseNls fuel rest

/-- Pass 5 of `clean_markdown`: `re.sub(r"^>\s-\s", "- ", md, flags=re.M)`
acts once per line. -/
def quoteDashLine (l : Line) : Line :=
  match l with
  | '>' :: w1 :: '-' :: w2 :: rest =>
    if isPyWs w1 && isPyWs w2 then '-' :: ' ' :: rest else l
  | _ => l

/-- `clean_markdown` (app.py lines 164-173). -/
def clean_markdown (md : List Char) : List Char :=
  if md = [] then [] else
  let s1 := joinNl ((splitNl md).map headingSpaceLine)
  let s2 := blankBeforeHeading s1.length s1
  let s3 := blankBeforeQuote s2.length s2
  let s4 := collapseNls s3.length s3
  let s5 := joinNl ((splitNl s4).map quoteDashLine)
  pyStrip s5

/-- The regex `^(\s*)(\d+)\.\s+(.*)$` of `renumber_ordered_lists`:
returns the indent width (group-1 length) and group 3 (the content after
the maximal whitespace run following the dot). -/
def numMatch (l : Line) : Option (Nat × List Char) :=
  let ws := l.takeWhile isPyWs
  let r1 := l.dropWhile isPyWs
  let digits := r1.takeWhile (fun c => c.isDigit)
  let r2 := r1.dropWhile (fun c => c.isDigit)
  match digits.length, r2 with
  | _ + 1, '.' :: w :: r3 =>
    if isPyWs w then some (ws.length, (w :: r3).dropWhile isPyWs) else none
  | _, _ => none

/-- Decimal rendering of a natural number (Python `f"{n}"`). -/
def natCharsAux : Nat → Nat → List Char
  | 0, _ => []
  | fuel + 1, n => if n = 0 then [] else natCharsAux fuel (n / 10) ++ [Nat.digitChar (n % 10)]

/-- Decimal numeral of `n`, most significant digit first. -/
def natChars (n : Nat) : List Char :=
  if n = 0 then ['0'] else natCharsAux n n

/-- Rebuilt ordered-list line: `" " * indent + f"{num}. " + content`. -/
def mkNumLine (indent num : Nat) (content : List Char) : Line :=
  List.replicate indent ' ' ++ natChars num ++ '.' :: ' ' :: content

/-- The line loop of `renumber_ordered_lists` (app.py lines 186-206).
The Python dict `counters` is modelled as a total function defaulting to
`0`; deleting a key is setting it back to `0`, which is observationally
identical because every read either follows an assignment or uses
`counters.get(indent, 0)`. -/
def renumLines (ic : Bool) (counters : Nat → Nat) (active : Option Nat) : List Line → List Line
  | [] => []
  | l :: ls =>
    if fenceLine l then l :: renumLines (!ic) counters active ls
    else if ic then l :: renumLines ic counters active ls
    else
      match numMatch l with
      | some (indent, content) =>
        if active = some indent then
          let n := counters indent + 1
          mkNumLine indent n content ::
            renumLines ic (fun k => if k = indent then n else counters k) active ls
        else
          let counters' := fun k =>
            if k = indent then 1 else if indent ≤ k then 0 else counters k
          mkNumLine indent 1 content :: renumLines ic counters' (some indent) ls
      | none => l :: renumLines ic counters none ls

/-- `renumber_ordered_lists` (app.py lines 175-207). -/
def renumber_ordered_lists (md : List Char) : List Char :=
  if md = [] then []
  else pyStrip (joinNl (renumLines false (fun _ => 0) none (splitlines md)))

/-- Lazy search for the closing pair of emphasis markers:
given the text after the first (forced) content character, find the
shortest split `content ++ [mark, mark] ++ rest` whose `rest` does not
begin with another `mark` (the `(?!\*)` look-ahead).  `acc` holds the
content read so far, reversed. -/
def findCloseGo (mark : Char) (acc : List Char) : List Char → Option (List Char × List Char)
  | a :: b :: rest =>
    if a = mark && b = mark && rest.headD ' ' ≠ mark then some (acc.reverse, rest)
    else findCloseGo mark (a :: acc) (b :: rest)
  | _ => none

/-- Close search for `(?<!m)mm(.+?)mm(?!m)`: the content group is
non-empty, so the first character is consumed unconditionally. -/
def findClose (mark : Char) : List Char → Option (List Char × List Char)
  | [] => none
  | c :: cs => findCloseGo mark [c] cs

/-- `re.sub(r"(?<!\*)\*\*(.+?)\*\*(?!\*)", r"\1", s)` (and the `__`
variant): scan left to right; `prev` is the character before the current
position (for the look-behind), `none` at the part boundary. -/
def boldSubGo (mark : Char) : Nat → Option Char → List Char → List Char
  | 0, _, s => s
  | _ + 1, _, [] => []
  | fuel + 1, prev, a :: rest =>
    if a = mark && rest.headD ' ' = mark && prev ≠ some mark then
      match findClose mark rest.tail with
      | some (content, rest') => content ++ boldSubGo mark fuel (some mark) rest'
      | none => a :: boldSubGo mark fuel (some a) rest
    else a :: boldSubGo mark fuel (some a) rest

/-- Both emphasis substitutions applied to one non-code part
(`bold_ast` then `bold_uscr`). -/
def boldBoth (part : List Char) : List Char :=
  let p1 := boldSubGo '*' part.length none part
  boldSubGo '_' p1.length none p1

/-- One line of `strip_bold_emphasis` outside code fences: split the
line alternately on inline code spans (`re.split(r"(`[^`]*`)", line)`),
apply the emphasis substitutions to the non-code parts only, and
reassemble. -/
def lineBoldGo : Nat → List Char → List Char
  | 0, s => s
  | fuel + 1, s =>
    let pre := s.takeWhile (fun c => c ≠ btick)
    let rest := s.dropWhile (fun c => c ≠ btick)
    match rest with
    | [] => boldBoth pre
    | b :: rest2 =>
      let inner := rest2.takeWhile (fun c => c ≠ btick)
      let rest3 := rest2.dropWhile (fun c => c ≠ btick)
      match rest3 with
      | [] => boldBoth (pre ++ b :: inner)
      | b2 :: rest4 => boldBoth pre ++ (b :: inner ++ [b2]) ++ lineBoldGo fuel rest4

/-- One non-fence line of `strip_bold_emphasis`. -/
def lineStripBold (l : Line) : Line := lineBoldGo l.length l

/-- The line loop of `strip_bold_emphasis` (app.py lines 222-237). -/
def stripBoldLines (ic : Bool) : List Line → List Line
  | [] => []
  | l :: ls =>
    if fenceLine l then l :: stripBoldLines (!ic) ls
    else if ic then l :: stripBoldLines ic ls
    else lineStripBold l :: stripBoldLines ic ls

/-- `strip_bold_emphasis` (app.py lines 209-238). -/
def strip_bold_emphasis (md : List Char) : List Char :=
  if md = [] then []
  else pyStrip (joinNl (stripBoldLines false (splitlines md)))


/-- The paragraph loop of `split_by_paragraph` (app.py lines 243-261):
blank lines outside code fences delimit paragraphs; the fence state is
toggled before the blank test. -/
def sbpLoop (ic : Bool) (buf : List Line) : List Line → List (List Char)
  | [] => if buf.isEmpty then [] else [joinNl buf]
  | ln :: ls =>
    let ic2 := if fenceLine ln then !ic else ic
    if !ic2 && (pyStrip ln).isEmpty then
      if buf.isEmpty then sbpLoop ic2 [] ls
      else joinNl buf :: sbpLoop ic2 [] ls
    else sbpLoop ic2 (buf ++ [ln]) ls

/-- `split_by_paragraph` (app.py lines 243-261). -/
def split_by_paragraph (md : List Char) : List (List Char) :=
  if md = [] then [] else sbpLoop false [] (splitNl md)

/-- A chunk record of `chunk_markdown`: `text`, `start`, `end` (the last
is called `stop` here because `end` is reserved).  Offsets are integers:
the Python arithmetic can produce negative starts. -/
structure Chunk where
  text : List Char
  start : Int
  stop : Int
deriving DecidableEq, Repr

/-- Sum of `len(x) + 2` over a paragraph buffer (the `size` bookkeeping
of `chunk_markdown`). -/
def bufSize (buf : List (List Char)) : Nat := (buf.map (fun p => p.length + 2)).sum

/-- The overlap walk of `chunk_markdown` (app.py lines 278-286): take
paragraphs from the end of the closed buffer while the overlap budget
allows, always taking at least one.  The input is the reversed buffer;
consing each kept paragraph onto `acc` restores document order. -/
def backAux (overlap : Nat) (acc : List (List Char)) (backsize : Nat) :
    List (List Char) → List (List Char)
  | [] => acc
  | q :: qs =>
    if backsize + (q.length + 2) > overlap && !acc.isEmpty then acc
    else backAux overlap (q :: acc) (backsize + (q.length + 2)) qs

/-- The paragraph loop of `chunk_markdown` (app.py lines 271-290). -/
def chunkLoop (target overlap : Nat) : List (List Char) → List (List Char) → Nat → Int → List Chunk
  | [], buf, _, start =>
    if buf.isEmpty then []
    else
      let text := pyStrip (joinPP buf)
      [⟨text, start, start + text.length⟩]
  | p :: ps, buf, size, start =>
    let plen := p.length + 2
    if size + plen > target && decide (0 < size) then
      let text := pyStrip (joinPP buf)
      let e : Int := start + text.length
      let buf2 := backAux overlap [] 0 buf.reverse
      let size2 := bufSize buf2
      ⟨text, start, e⟩ :: chunkLoop target overlap ps (buf2 ++ [p]) (size2 + plen) (e - size2)
    else chunkLoop target overlap ps (buf ++ [p]) (size + plen) start

/-- `chunk_markdown` (app.py lines 263-295). -/
def chunk_markdown (md : List Char) (target_chars overlap_chars : Nat) : List Chunk :=
  if md = [] then [⟨[], 0, 0⟩]
  else chunkLoop target_chars overlap_chars (split_by_paragraph md) [] 0 0

/-- Does the line contain a pipe (`"|" in line`)? -/
def hasPipe (l : Line) : Bool := l.any (fun c => c = '|')

/-- One dash segment of the alignment-separator row: optional
whitespace, an optional colon, three or more dashes, an optional colon,
optional whitespace. -/
def isAlignCell (p : List Char) : Bool :=
  let r1 := p.dropWhile isPyWs
  let r2 := if r1.headD ' ' = ':' then r1.tail else r1
  let dashes := r2.takeWhile (fun c => c = '-')
  let r3 := r2.dropWhile (fun c => c = '-')
  let r4 := if r3.headD ' ' = ':' then r3.tail else r3
  dashes.length ≥ 3 && r4.all isPyWs

/-- `ALIGN_RE = ^\s*\|?(?:\s*:?-{3,}:?\s*\|)+\s*:?-{3,}:?\s*\|?\s*$`
(app.py line 300).  Splitting the line on every pipe, the optional outer
pipes correspond exactly to a whitespace-only first or last piece (a
dash segment cannot be whitespace-only and a whitespace-only piece
cannot be a dash segment, so the match is forced); what remains must be
two or more dash segments — the `(...)+` group contributes at least one
segment and the tail exactly one more. -/
def alignMatch (l : Line) : Bool :=
  let ps := splitOnChar '|' l
  let ps1 :=
    match ps with
    | [] => []
    | h :: t => if h.all isPyWs then t else ps
  let ps2 := if ps1 ≠ [] && (ps1.getLastD []).all isPyWs then ps1.dropLast else ps1
  ps2.length ≥ 2 && ps2.all isAlignCell

/-- The character scan of `_split_md_row` (app.py lines 302-321):
split a (stripped) row on pipes, honouring backslash escapes (the
backslash is consumed) and inline code spans; every emitted cell is
stripped. -/
def splitRowGo (ic esc : Bool) (buf : List Char) (cells : List (List Char)) :
    List Char → List (List Char)
  | [] => cells ++ [pyStrip buf]
  | ch :: rest =>
    if esc then splitRowGo ic false (buf ++ [ch]) cells rest
    else if ch = '\\' then splitRowGo ic true buf cells rest
    else if ch = btick then splitRowGo (!ic) esc (buf ++ [ch]) cells rest
    else if ch = '|' && !ic then splitRowGo ic esc [] (cells ++ [pyStrip buf]) rest
    else splitRowGo ic esc (buf ++ [ch]) cells rest

/-- `_split_md_row` (app.py lines 302-321). -/
def split_md_row (line : Line) : List (List Char) :=
  let cells := splitRowGo false false [] [] (pyStrip line)
  let c1 :=
    match cells with
    | h :: t => if h.isEmpty then t else cells
    | [] => cells
  if c1 ≠ [] && (c1.getLastD []).isEmpty then c1.dropLast else c1

/-- `_normalize_key` (app.py lines 323-327): ASCII-fold, strip, lower,
collapse non-word runs to a single underscore, strip underscores,
default `"col"`. -/
def normalize_key (s : List Char) : List Char :=
  let s1 := (s.map asciiFold).flatten
  let s2 := (pyStrip s1).map Char.toLower
  let s3 := collapseRuns (fun c => !isWordChar c) '_' s2
  let s4 := stripUnderscores s3
  if s4.isEmpty then str "col" else s4

/-- The `while f"{k}_{c}" in seen: c += 1` disambiguation of
`extract_tables`: try suffixes `_c`, `_{c+1}`, … until one is unused.
Fuel `seen.length + 1` always suffices (see `keySuffix_not_mem`). -/
def keySuffix (k : List Char) (seen : List (List Char)) : Nat → Nat → List Char
  | 0, c => k ++ '_' :: natChars c
  | fuel + 1, c =>
    let cand := k ++ '_' :: natChars c
    if cand ∈ seen then keySuffix k seen fuel (c + 1) else cand

/-- The key-derivation loop of `extract_tables` (app.py lines 356-365):
normalize each cleaned header and disambiguate collisions with `_2`,
`_3`, …; `seen` collects the keys already emitted. -/
def buildKeys (seen : List (List Char)) : List (List Char) → List (List Char)
  | [] => []
  | h :: t =>
    let k := normalize_key h
    let k2 := if k ∈ seen then keySuffix k seen (seen.length + 1) 2 else k
    k2 :: buildKeys (k2 :: seen) t

/-- A table record of `extract_tables`; a row object (Python dict built
from `zip(keys, vals)` with pairwise-distinct keys) is an association
list in key order. -/
structure MTable where
  headers_raw : List (List Char)
  headers : List (List Char)
  rows : List (List (List Char × List Char))
  start : Nat
  stop : Nat
deriving DecidableEq, Repr

/-- Row-length reconciliation of `extract_tables` (app.py lines
367-371): pad short rows with empty cells, truncate long rows. -/
def padTrunc (r : List (List Char)) (n : Nat) : List (List Char) :=
  if r.length < n then r ++ List.replicate (n - r.length) []
  else if r.length > n then r.take n
  else r

/-- One row object: reconcile the cell count, strip emphasis from each
cell, pair with the column keys. -/
def mkRow (keys : List (List Char)) (r : List (List Char)) :
    List (List Char × List Char) :=
  keys.zip ((padTrunc r keys.length).map strip_bold_emphasis)

/-- Condition under which the row-collection loop of `extract_tables`
keeps consuming lines (app.py lines 348-353). -/
def rowCond (ln : Line) : Bool :=
  hasPipe ln && !(headingMatch ln).isSome && !(pyStrip ln).isEmpty

/-- The detection loop of `extract_tables` (app.py lines 340-383) over
the suffix of the line list starting at absolute index `i`; fuel at
least the number of lines makes it exact (every step consumes at least
one line). -/
def etLoop : Nat → Nat → List Line → List MTable
  | 0, _, _ => []
  | fuel + 1, i, h :: s :: rest =>
    if hasPipe h && alignMatch s then
      let headers := split_md_row h
      let rowsL := rest.takeWhile rowCond
      let rest2 := rest.dropWhile rowCond
      let j := i + 2 + rowsL.length
      if !headers.isEmpty && !rowsL.isEmpty then
        let clean_headers := headers.map strip_bold_emphasis
        let keys := buildKeys [] clean_headers
        let row_objs := (rowsL.map split_md_row).map (mkRow keys)
        ⟨clean_headers, keys, row_objs, i, j - 1⟩ :: etLoop fuel j rest2
      else etLoop fuel (i + 1) (s :: rest)
    else etLoop fuel (i + 1) (s :: rest)
  | _ + 1, _, _ => []

/-- JSON string escaping of `json.dumps` (ensure_ascii=False): quote,
backslash and the common control characters. -/
def jsonEscChar (c : Char) : List Char :=
  if c = '"' then ['\\', '"']
  else if c = '\\' then ['\\', '\\']
  else if c = '\n' then ['\\', 'n']
  else if c = '\t' then ['\\', 't']
  else if c = '\r' then ['\\', 'r']
  else [c]

/-- A JSON string literal. -/
def jsonStr (s : List Char) : List Char :=
  '"' :: (s.map jsonEscChar).flatten ++ ['"']

/-- Join rendered JSON items with `",\n"`. -/
def joinCommaNl : List (List Char) → List Char
  | [] => []
  | [l] => l
  | l :: ls => l ++ ',' :: '\n' :: joinCommaNl ls

/-- A JSON container (list or object) in `json.dumps(…, indent=2)`
style: items on their own lines indented two deeper than `indent`, the
closing bracket back at `indent`; an empty container renders inline. -/
def jsonContainer (openC closeC : Char) (indent : Nat) (items : List (List Char)) :
    List Char :=
  if items.isEmpty then [openC, closeC]
  else
    openC :: '\n' ::
      joinCommaNl (items.map (fun it => List.replicate (indent + 2) ' ' ++ it)) ++
      '\n' :: (List.replicate indent ' ' ++ [closeC])

/-- One row object rendered at base indentation `indent` (the braces are
written via their code points). -/
def jsonRowObj (indent : Nat) (row : List (List Char × List Char)) : List Char :=
  jsonContainer (Char.ofNat 123) (Char.ofNat 125) indent
    (row.map (fun kv => jsonStr kv.1 ++ ':' :: ' ' :: jsonStr kv.2))

/-- `json.dumps({"headers": keys, "rows": rows}, ensure_ascii=False,
indent=2)` for one extracted table. -/
def jsonTable (keys : List (List Char)) (rows : List (List (List Char × List Char))) :
    List Char :=
  jsonContainer (Char.ofNat 123) (Char.ofNat 125) 0
    [jsonStr (str "headers") ++ ':' :: ' ' :: jsonContainer '[' ']' 2 (keys.map jsonStr),
     jsonStr (str "rows") ++ ':' :: ' ' :: jsonContainer '[' ']' 2 (rows.map (jsonRowObj 4))]

/-- The appendix blocks of `extract_tables` (app.py lines 388-394),
`idx` enumerating tables from 1. -/
def appendixBlocks : Nat → List MTable → List (List Char)
  | _, [] => []
  | idx, t :: ts =>
    (str "### Táblázat " ++ natChars idx) :: str "```json" :: jsonTable t.headers t.rows ::
      str "```" :: [] :: appendixBlocks (idx + 1) ts

/-- `extract_tables` (app.py lines 329-395): `(text, tables)`; the text
is unchanged when no table is detected, otherwise the machine-readable
appendix is attached. -/
def extract_tables (md : List Char) : List Char × List MTable :=
  if md = [] then (md, []) else
  let lines := splitlines md
  let tables := etLoop lines.length 0 lines
  if tables.isEmpty then (md, [])
  else
    (pyStrip (joinNl (([md, [], str "## Adattáblák (gépi kivonat)", []] : List (List Char)) ++
       appendixBlocks 1 tables)), tables)


/-! Specification-level notions used by the theorems below. -/

/-- Characters that can appear in a `normalize` output: word characters
that are ASCII and lower-case-fixed, or the single space. -/
def goodC (c : Char) : Prop :=
  (isWordChar c = true ∧ c.toLower = c ∧ c.toNat < 128) ∨ c = ' '

/-- No two adjacent occurrences of `r`. -/
def noTwoAdj (r : Char) : List Char → Prop
  | [] => True
  | a :: t => ¬(a = r ∧ t.head? = some r) ∧ noTwoAdj r t

/-- Every whitespace character of the list is a plain space. -/
def wsOnlySpace (l : List Char) : Prop :=
  ∀ c ∈ l, isPyWs c = true → c = ' '

/-- The heading line `"#" * level + " " + title`. -/
def mkHeading (lvl : Nat) (title : List Char) : Line :=
  List.replicate lvl '#' ++ ' ' :: title

/-- The lines a section contributes when a document is re-assembled: its
heading line (absent for the synthetic level-0 preamble section)
followed by its body lines. -/
def secLines (s : Sec) : List Line :=
  (if s.1 = 0 then [] else [mkHeading s.1 s.2.1]) ++ s.2.2

/-- A line is canonical when, if it parses as a heading, it is exactly
the heading line rebuilt from its parsed level and stripped title
(no extra, trailing or non-space whitespace around the title). -/
def canonHeadingB (ln : Line) : Bool :=
  match headingMatch ln with
  | none => true
  | some (lvl, g2) => ln = mkHeading lvl (pyStrip g2)

/-- Which lines sit strictly inside a fenced code block: fence lines
toggle the state and are themselves marked `false`. -/
def insideCode (st : Bool) : List Line → List Bool
  | [] => []
  | l :: ls => if fenceLine l then false :: insideCode (!st) ls else st :: insideCode st ls

/-- A paragraph that trimming cannot touch: non-empty with non-blank
first and last character. -/
def goodParaB (p : List Char) : Bool :=
  !p.isEmpty && !isPyWs (p.headD ' ') && !isPyWs (p.getLastD ' ')

/-- The offset discipline the chunker maintains between adjacent chunks:
the overlapped text `v` is a suffix of the earlier chunk and starts the
later chunk, followed by the paragraph separator, and the later start
equals the earlier end minus the overlap length plus the separator
width 2. -/
def offsetsOK : List Chunk → Prop
  | c :: c' :: cs =>
    (∃ v w u, c'.text = v ++ '\n' :: '\n' :: w ∧ c.text = u ++ v ∧
      v ≠ [] ∧ c'.start = c.stop - (v.length + 2)) ∧ offsetsOK (c' :: cs)
  | _ => True

/-- Concatenation of the chunk texts with each overlapped prefix
removed; the length of the overlapped prefix of the next chunk is
recovered from the offsets as `c.stop - c'.start - 2` (the 2 being the
paragraph separator that follows the overlap). -/
def dedupConcat : List Chunk → List Char
  | [] => []
  | [c] => c.text
  | c :: c' :: cs => c.text ++ (dedupConcat (c' :: cs)).drop (c.stop - c'.start - 2).toNat

/-- How a chunk list covers a paragraph list: one chunk holds a group of
paragraphs; adjacent chunks share an `ovl` of trailing paragraphs, and
the later chunk starts at the earlier end minus the buffered size of the
shared paragraphs. -/
inductive Covers : List (List Char) → List Chunk → Prop
  | single (paras : List (List Char)) (c : Chunk) :
      paras ≠ [] → c.text = joinPP paras → c.stop = c.start + c.text.length →
      Covers paras [c]
  | step (pre ovl rest : List (List Char)) (c c' : Chunk) (cs : List Chunk) :
      ovl ≠ [] → rest ≠ [] →
      c.text = joinPP (pre ++ ovl) → c.stop = c.start + c.text.length →
      c'.start = c.stop - bufSize ovl →
      Covers (ovl ++ rest) (c' :: cs) →
      Covers (pre ++ (ovl ++ rest)) (c :: c' :: cs)

/-- No two consecutive lines form a table start (pipe-containing line
followed by an alignment row). -/
def noTableStartB : List Line → Bool
  | h :: s :: rest => !(hasPipe h && alignMatch s) && noTableStartB (s :: rest)
  | _ => true

/-- Decimal value of a digit string (left inverse of `natChars`). -/
def charsToNat (l : List Char) : Nat :=
  l.foldl (fun acc c => acc * 10 + (c.toNat - 48)) 0


/-! ### Helper lemmas -/

theorem labelLoop_of_mem (tnorm phrase : List Char) (ls : List (List Char))
    (hmem : phrase ∈ ls) (hok : phraseOk tnorm phrase = true) :
    labelLoop tnorm ls = true := by
  induction ls with
  | nil => cases hmem
  | cons r rest ih =>
    rcases List.mem_cons.mp hmem with h | h
    · subst h
      simp [labelLoop, hok]
    · by_cases hr : phraseOk tnorm r = true
      · simp [labelLoop, hr]
      · simp only [labelLoop]
        rw [if_neg hr]
        exact ih h

/-! ### C9: an empty-normalizing label phrase matches every title -/

/-- C9.  If some phrase of the label list normalizes to the empty
string, `label_match` returns `True` for every heading title: the
normalized phrase has no whitespace tokens, so the per-token substring
test is vacuously satisfied and the phrase loop accepts at that
phrase at the latest. -/
theorem label_match_empty_phrase (title phrase : List Char) (labels : List (List Char))
    (hmem : phrase ∈ labels) (hnorm : normalize phrase = []) :
    label_match title labels = true := by
  apply labelLoop_of_mem _ phrase _ hmem
  simp [phraseOk, hnorm, pyWords, pyWordsGo]

/-- Witness for C9 at a concrete input: the phrase `"   "` normalizes to
the empty string and makes the label set match an unrelated title. -/
theorem label_match_empty_phrase_witness :
    normalize (str "   ") = [] ∧
      label_match (str "Kép galéria") [str "videó szöveg", str "   "] = true :=
  ⟨by decide, label_match_empty_phrase _ (str "   ") _ (by decide) (by decide)⟩



theorem char_toNat_ofNat (n : Nat) (h : n < 55296) : (Char.ofNat n).toNat = n := by
  simp [Char.ofNat, Nat.isValidChar, h, Char.ofNatAux, Char.toNat, UInt32.toNat]

theorem toLower_toLower (c : Char) : c.toLower.toLower = c.toLower := by
  unfold Char.toLower
  by_cases h : c.toNat ≥ 65 ∧ c.toNat ≤ 90
  · simp only [h, if_pos, and_self]
    have hv : (Char.ofNat (c.toNat + 32)).toNat = c.toNat + 32 :=
      char_toNat_ofNat _ (by omega)
    rw [if_neg]
    omega
  · simp [h]

theorem asciiFold_ascii (c : Char) : ∀ d ∈ asciiFold c, d.toNat < 128 := by
  unfold asciiFold
  split
  · intro d hd; simp at hd; subst hd; assumption
  · split <;> intro d hd <;> simp_all

theorem toLower_ascii (c : Char) (h : c.toNat < 128) : c.toLower.toNat < 128 := by
  unfold Char.toLower
  by_cases h2 : c.toNat ≥ 65 ∧ c.toNat ≤ 90
  · simp only [h2, and_self, if_pos]
    rw [char_toNat_ofNat _ (by omega)]
    omega
  · simp [h2, h]

theorem dropEndP_isPre (p : Char → Bool) (l : List Char) :
    dropEndP p l <+: l := by
  have h := List.reverse_prefix.mpr (List.dropWhile_suffix (l := l.reverse) p)
  rw [List.reverse_reverse] at h
  exact h

theorem dropEndP_sublist (p : Char → Bool) (l : List Char) :
    (dropEndP p l).Sublist l :=
  (dropEndP_isPre p l).sublist

theorem mem_of_mem_pyStrip (c : Char) (l : List Char) (h : c ∈ pyStrip l) : c ∈ l := by
  unfold pyStrip at h
  exact (List.dropWhile_sublist isPyWs).mem ((dropEndP_sublist _ _).mem h)

theorem noTwoAdj_tail (r a : Char) (l : List Char) (h : noTwoAdj r (a :: l)) :
    noTwoAdj r l := h.2

theorem noTwoAdj_append_left (r : Char) (l₁ l₂ : List Char)
    (h : noTwoAdj r (l₁ ++ l₂)) : noTwoAdj r l₁ := by
  induction l₁ with
  | nil => trivial
  | cons a t ih =>
    refine ⟨?_, ih h.2⟩
    rintro ⟨rfl, hh⟩
    apply h.1
    refine ⟨rfl, ?_⟩
    cases t with
    | nil => simp at hh
    | cons b t' => simpa using hh

theorem noTwoAdj_dropWhile (r : Char) (q : Char → Bool) (l : List Char)
    (h : noTwoAdj r l) : noTwoAdj r (l.dropWhile q) := by
  induction l with
  | nil => simpa using h
  | cons a t ih =>
    rw [List.dropWhile_cons]
    by_cases hq : q a = true
    · simp only [hq, if_pos]
      exact ih h.2
    · simp only [hq]
      simpa using h

theorem noTwoAdj_dropEndP (r : Char) (p : Char → Bool) (l : List Char)
    (h : noTwoAdj r l) : noTwoAdj r (dropEndP p l) := by
  obtain ⟨t, ht⟩ := dropEndP_isPre p l
  exact noTwoAdj_append_left r _ t (by rw [ht]; exact h)

theorem noTwoAdj_pyStrip (r : Char) (l : List Char) (h : noTwoAdj r l) :
    noTwoAdj r (pyStrip l) :=
  noTwoAdj_dropEndP r isPyWs _ (noTwoAdj_dropWhile r isPyWs l h)

theorem collapse_chars (p : Char → Bool) (r : Char) (b : Bool) (l : List Char)
    (c : Char) (h : c ∈ collapseRunsAux p r b l) : c = r ∨ (c ∈ l ∧ p c = false) := by
  induction l generalizing b with
  | nil => simp [collapseRunsAux] at h
  | cons a t ih =>
    unfold collapseRunsAux at h
    by_cases hp : p a = true
    · rw [if_pos hp] at h
      cases b with
      | true =>
        simp only [if_pos] at h
        rcases ih true h with h2 | h2
        · exact Or.inl h2
        · exact Or.inr ⟨List.mem_cons_of_mem _ h2.1, h2.2⟩
      | false =>
        simp only [Bool.false_eq_true, if_false] at h
        rcases List.mem_cons.mp h with h2 | h2
        · exact Or.inl h2
        · rcases ih true h2 with h3 | h3
          · exact Or.inl h3
          · exact Or.inr ⟨List.mem_cons_of_mem _ h3.1, h3.2⟩
    · rw [if_neg hp] at h
      rcases List.mem_cons.mp h with h2 | h2
      · subst h2
        exact Or.inr ⟨List.mem_cons_self _ _, by simpa using hp⟩
      · rcases ih false h2 with h3 | h3
        · exact Or.inl h3
        · exact Or.inr ⟨List.mem_cons_of_mem _ h3.1, h3.2⟩

theorem collapse_head_true (p : Char → Bool) (r : Char) (l : List Char) (x : Char)
    (h : (collapseRunsAux p r true l).head? = some x) : p x = false := by
  induction l with
  | nil => simp [collapseRunsAux] at h
  | cons a t ih =>
    unfold collapseRunsAux at h
    by_cases hp : p a = true
    · rw [if_pos hp] at h
      simp only [if_pos] at h
      exact ih h
    · rw [if_neg hp] at h
      simp only [List.head?_cons, Option.some.injEq] at h
      subst h
      simpa using hp

theorem collapse_noTwoAdj (p : Char → Bool) (r : Char) (hr : p r = true)
    (b : Bool) (l : List Char) : noTwoAdj r (collapseRunsAux p r b l) := by
  induction l generalizing b with
  | nil => simp [collapseRunsAux, noTwoAdj]
  | cons a t ih =>
    unfold collapseRunsAux
    by_cases hp : p a = true
    · rw [if_pos hp]
      cases b with
      | true => exact ih true
      | false =>
        simp only [Bool.false_eq_true, if_false]
        refine ⟨?_, ih true⟩
        rintro ⟨-, hh⟩
        have h2 := collapse_head_true p r t r hh
        rw [hr] at h2
        cases h2
    · rw [if_neg hp]
      refine ⟨?_, ih false⟩
      rintro ⟨rfl, -⟩
      exact hp hr

theorem collapse_fix (l : List Char)
    (hws : ∀ c ∈ l, isPyWs c = true → c = ' ')
    (hadj : noTwoAdj ' ' l) :
    collapseRunsAux isPyWs ' ' false l = l ∧
      (l.head? ≠ some ' ' → collapseRunsAux isPyWs ' ' true l = l) := by
  induction l with
  | nil => simp [collapseRunsAux]
  | cons a t ih =>
    have iht := ih (fun c hc => hws c (List.mem_cons_of_mem _ hc)) hadj.2
    by_cases hp : isPyWs a = true
    · have ha : a = ' ' := hws a (List.mem_cons_self _ _) hp
      subst ha
      constructor
      · unfold collapseRunsAux
        rw [if_pos hp]
        simp only [Bool.false_eq_true, if_false]
        have hhead : t.head? ≠ some ' ' := by
          intro hh
          exact hadj.1 ⟨rfl, hh⟩
        rw [iht.2 hhead]
      · intro hcontr
        simp at hcontr
    · constructor
      · unfold collapseRunsAux
        rw [if_neg hp, iht.1]
      · intro _
        unfold collapseRunsAux
        rw [if_neg hp, iht.1]

theorem flatten_asciiFold_fix (l : List Char) (h : ∀ c ∈ l, c.toNat < 128) :
    ((l.map asciiFold).flatten) = l := by
  induction l with
  | nil => rfl
  | cons a t ih =>
    simp only [List.map_cons, List.flatten_cons]
    have ha : asciiFold a = [a] := by
      unfold asciiFold
      rw [if_pos (h a (List.mem_cons_self _ _))]
    rw [ha, ih (fun c hc => h c (List.mem_cons_of_mem _ hc))]
    rfl

theorem map_fix {f : Char → Char} (l : List Char) (h : ∀ c ∈ l, f c = c) :
    l.map f = l := by
  induction l with
  | nil => rfl
  | cons a t ih =>
    simp only [List.map_cons]
    rw [h a (List.mem_cons_self _ _), ih (fun c hc => h c (List.mem_cons_of_mem _ hc))]

theorem normalize_chars (x : List Char) : ∀ c ∈ normalize x, goodC c := by
  intro c hc
  unfold normalize collapseRuns at hc
  rcases collapse_chars _ _ _ _ _ hc with h | ⟨hmem, hnws⟩
  · exact Or.inr h
  · simp only [List.mem_map] at hmem
    obtain ⟨d, hd, hfd⟩ := hmem
    by_cases hcond : (isWordChar d || isPyWs d) = true
    · rw [if_pos hcond] at hfd
      subst hfd
      obtain ⟨e, he, hle⟩ := hd
      have hea : e.toNat < 128 := by
        have he2 := mem_of_mem_pyStrip e _ he
        simp only [List.mem_flatten, List.mem_map] at he2
        obtain ⟨piece, ⟨a, _, hpa⟩, hep⟩ := he2
        exact asciiFold_ascii a e (hpa ▸ hep)
      have hword : isWordChar d = true := by
        rcases Bool.or_eq_true_iff.mp hcond with h2 | h2
        · exact h2
        · rw [h2] at hnws
          cases hnws
      refine Or.inl ⟨hword, ?_, ?_⟩
      · rw [← hle]; exact toLower_toLower e
      · rw [← hle]; exact toLower_ascii e hea
    · rw [if_neg hcond] at hfd
      subst hfd
      simp [isPyWs] at hnws

theorem normalize_wsOnlySpace (x : List Char) : wsOnlySpace (normalize x) := by
  intro c hc hws
  unfold normalize collapseRuns at hc
  rcases collapse_chars _ _ _ _ _ hc with h | ⟨_, hnws⟩
  · exact h
  · rw [hws] at hnws
    cases hnws

theorem normalize_noTwoAdj (x : List Char) : noTwoAdj ' ' (normalize x) :=
  collapse_noTwoAdj isPyWs ' ' (by decide) false _

theorem normalize_of_good (y : List Char)
    (hg : ∀ c ∈ y, goodC c) (hws : wsOnlySpace y) (hadj : noTwoAdj ' ' y) :
    normalize y = pyStrip y := by
  have hascii : ∀ c ∈ y, c.toNat < 128 := by
    intro c hc
    rcases hg c hc with ⟨_, _, h⟩ | h
    · exact h
    · subst h; decide
  unfold normalize
  rw [flatten_asciiFold_fix y hascii]
  have hlow : (pyStrip y).map Char.toLower = pyStrip y := by
    apply map_fix
    intro c hc
    rcases hg c (mem_of_mem_pyStrip c y hc) with ⟨_, h, _⟩ | h
    · exact h
    · subst h; decide
  rw [hlow]
  have hfilter : (pyStrip y).map
      (fun c => if (isWordChar c || isPyWs c) = true then c else ' ') = pyStrip y := by
    apply map_fix
    intro c hc
    rcases hg c (mem_of_mem_pyStrip c y hc) with ⟨h, _, _⟩ | h
    · simp [h]
    · subst h; decide
  rw [hfilter]
  unfold collapseRuns
  exact (collapse_fix (pyStrip y)
    (fun c hc => hws c (mem_of_mem_pyStrip c y hc))
    (noTwoAdj_pyStrip ' ' y hadj)).1

/-! ### C2: is the Normalizer idempotent? -/

/-- C2, counterexample.  `normalize` is not idempotent and its output can
retain trailing whitespace: `normalize "a!" = "a "` while a second pass
gives `"a"`; likewise `normalize "Videó Szöveg!"` ends in a space and so
differs from `normalize "video szoveg"`.  The cause: the Python code
strips before it converts punctuation into spaces. -/
theorem normalize_idempotent_cex :
    normalize (str "a!") = str "a " ∧
      normalize (normalize (str "a!")) = str "a" ∧
      str "a" ≠ str "a " ∧
      normalize (str "Videó Szöveg!") ≠ normalize (str "video szoveg") := by
  refine ⟨by decide, by decide, by decide, by decide⟩

/-- C2, amended.  `normalize` is idempotent only up to a final trim: a
second application returns the first result stripped of the single
leading or trailing space that boundary punctuation can leave behind,
`normalize (normalize x) = pyStrip (normalize x)`.  The output consists
of lower-case ASCII word characters separated by single spaces, but may
retain one leading and one trailing space; on inputs whose normalization
has no boundary space, idempotence holds on the nose. -/
theorem normalize_idempotent_up_to_strip (x : List Char) :
    normalize (normalize x) = pyStrip (normalize x) :=
  normalize_of_good (normalize x) (normalize_chars x)
    (normalize_wsOnlySpace x) (normalize_noTwoAdj x)


theorem collectCands_eq_filter (vl ll : List (List Char)) (mn mx : Nat)
    (secs : List Sec) :
    collectCands vl ll mn mx secs =
      (secs.filter (fun s => decide (mn ≤ s.1 ∧ s.1 ≤ mx) && label_match s.2.1 vl),
       secs.filter (fun s =>
         decide (mn ≤ s.1 ∧ s.1 ≤ mx) && !label_match s.2.1 vl && label_match s.2.1 ll)) := by
  induction secs with
  | nil => rfl
  | cons s rest ih =>
    unfold collectCands
    rw [ih]
    by_cases hr : mn ≤ s.1 ∧ s.1 ≤ mx
    · by_cases hv : label_match s.2.1 vl = true
      · simp [hr, hv, List.filter_cons]
      · by_cases hl : label_match s.2.1 ll = true
        · simp [hr, hv, hl, List.filter_cons]
        · simp [hr, hv, hl, List.filter_cons]
    · simp [hr, List.filter_cons]

theorem firstNonempty_eq_find (l : List Sec) :
    firstNonempty l = l.find? (fun s => !(textOf s).isEmpty) := by
  induction l with
  | nil => rfl
  | cons s rest ih =>
    unfold firstNonempty
    rw [List.find?_cons]
    by_cases h : textOf s = []
    · have htf : (textOf s).isEmpty = true := List.isEmpty_iff.mpr h
      simp [h, ih, htf]
    · have htf : (textOf s).isEmpty = false := List.isEmpty_eq_false.mpr h
      simp [h, ih, htf]

/-! ### C5: section selection order -/

/-- C5.  `choose_section` returns the first candidate section in
document order whose heading level lies in the inclusive range and whose
title fuzzy-matches a video label and whose trimmed body is non-empty;
failing that, the first lesson-labelled one (a section matching a video
label is never considered for the lesson class); failing that,
`("none", "", "")`.  In particular, a document with an empty
`## Videó szöveg` followed by a non-empty `## Lecke szöveg` selects the
lesson section. -/
theorem choose_section_first_nonempty (secs : List Sec) (vl ll : List (List Char))
    (mn mx : Nat) :
    (choose_section secs vl ll mn mx =
      match (secs.filter (fun s => decide (mn ≤ s.1 ∧ s.1 ≤ mx) &&
          label_match s.2.1 vl)).find? (fun s => !(textOf s).isEmpty) with
      | some s => (str "video", textOf s, s.2.1)
      | none =>
        match (secs.filter (fun s => decide (mn ≤ s.1 ∧ s.1 ≤ mx) &&
            !label_match s.2.1 vl && label_match s.2.1 ll)).find?
            (fun s => !(textOf s).isEmpty) with
        | some s => (str "lecke", textOf s, s.2.1)
        | none => (str "none", [], [])) ∧
    choose_section
        (split_markdown_sections (str "# T\n## Videó szöveg\n\n## Lecke szöveg\nLesson body\n"))
        DEFAULT_VIDEO_LABELS DEFAULT_LESSON_LABELS 2 4 =
      (str "lecke", str "Lesson body", str "Lecke szöveg") := by
  constructor
  · unfold choose_section
    rw [collectCands_eq_filter]
    dsimp only
    rw [firstNonempty_eq_find, firstNonempty_eq_find]
  · decide


/-! ### C7: ordered-list renumbering -/

/-- C7.  Outside code fences `renumber_ordered_lists` renumbers ordered
list items with one counter per indent level: on a numbered line whose
indent equals the active indent the counter of that level is
incremented and written out; on a numbered line with a new or different
indent, that level's counter restarts at 1 and every counter of that
level or deeper is discarded (reset to the default), shallower counters
being kept.  In particular `"1. a\n1. b\n1. c"` becomes
`"1. a\n2. b\n3. c"`, and a nested list keeps its own counter:
`"1. a\n    1. x\n    1. y\n1. b"` becomes
`"1. a\n    1. x\n    2. y\n1. b"`. -/
theorem renumber_counters (counters : Nat → Nat) (active : Option Nat) (l : Line)
    (ls : List Line) (indent : Nat) (content : List Char)
    (hnum : numMatch l = some (indent, content)) (hfence : fenceLine l = false) :
    ((active = some indent →
      renumLines false counters active (l :: ls) =
        mkNumLine indent (counters indent + 1) content ::
          renumLines false
            (fun k => if k = indent then counters indent + 1 else counters k) active ls) ∧
     (active ≠ some indent →
      renumLines false counters active (l :: ls) =
        mkNumLine indent 1 content ::
          renumLines false
            (fun k => if k = indent then 1 else if indent ≤ k then 0 else counters k)
            (some indent) ls)) ∧
    renumber_ordered_lists (str "1. a\n1. b\n1. c") = str "1. a\n2. b\n3. c" ∧
    renumber_ordered_lists (str "1. a\n    1. x\n    1. y\n1. b") =
      str "1. a\n    1. x\n    2. y\n1. b" := by
  refine ⟨⟨?_, ?_⟩, by decide, by decide⟩
  · intro ha
    conv_lhs => rw [renumLines]
    rw [hfence, hnum]
    simp only [Bool.false_eq_true, if_false]
    rw [if_pos ha]
  · intro ha
    conv_lhs => rw [renumLines]
    rw [hfence, hnum]
    simp only [Bool.false_eq_true, if_false]
    rw [if_neg ha]

/-- Witness for C7 at a concrete step: the line `"1. x"` parses as a
numbered item at indent 0, and the step behaviour holds there. -/
theorem renumber_counters_witness :
    ((none = some 0 →
      renumLines false (fun _ => 0) none (str "1. x" :: []) =
        mkNumLine 0 ((fun _ => (0 : Nat)) 0 + 1) (str "x") ::
          renumLines false
            (fun k => if k = 0 then (fun _ => (0 : Nat)) 0 + 1 else 0) none []) ∧
     ((none : Option Nat) ≠ some 0 →
      renumLines false (fun _ => 0) none (str "1. x" :: []) =
        mkNumLine 0 1 (str "x") ::
          renumLines false
            (fun k => if k = 0 then 1 else if 0 ≤ k then 0 else 0)
            (some 0) [])) ∧
    renumber_ordered_lists (str "1. a\n1. b\n1. c") = str "1. a\n2. b\n3. c" ∧
    renumber_ordered_lists (str "1. a\n    1. x\n    1. y\n1. b") =
      str "1. a\n    1. x\n    2. y\n1. b" :=
  renumber_counters (fun _ => 0) none (str "1. x") [] 0 (str "x")
    (by decide) (by decide)


theorem headingMatch_pos (ln : Line) (lvl : Nat) (g2 : List Char)
    (h : headingMatch ln = some (lvl, g2)) : 0 < lvl := by
  unfold headingMatch at h
  dsimp only at h
  split at h
  · cases h
  · cases h
  · split at h
    · cases h
      omega
    · cases h

theorem canonHeading_eq (ln : Line) (lvl : Nat) (g2 : List Char)
    (hm : headingMatch ln = some (lvl, g2)) (hc : canonHeadingB ln = true) :
    ln = mkHeading lvl (pyStrip g2) := by
  unfold canonHeadingB at hc
  rw [hm] at hc
  exact of_decide_eq_true hc

theorem smsLoop_recon (ls : List Line) (cur : Option (Nat × List Char)) (buf : List Line)
    (hcanon : ∀ ln ∈ ls, canonHeadingB ln = true) :
    ((smsLoop cur buf ls).map secLines).flatten =
      ((flushSec cur buf).map secLines).flatten ++ ls := by
  induction ls generalizing cur buf with
  | nil => simp [smsLoop]
  | cons ln ls ih =>
    have hcl : ∀ l ∈ ls, canonHeadingB l = true :=
      fun l hl => hcanon l (List.mem_cons_of_mem _ hl)
    simp only [smsLoop]
    cases hm : headingMatch ln with
    | some p =>
      obtain ⟨lvl, g2⟩ := p
      dsimp only
      simp only [List.map_append, List.flatten_append]
      rw [ih (some (lvl, pyStrip g2)) [] hcl]
      have hpos := headingMatch_pos ln lvl g2 hm
      have heq := canonHeading_eq ln lvl g2 hm (hcanon ln (List.mem_cons_self _ _))
      simp [flushSec, secLines, Nat.pos_iff_ne_zero.mp hpos, ← heq]
    | none =>
      cases cur with
      | none =>
        dsimp only
        rw [ih (some (0, [])) [ln] hcl]
        simp [flushSec, secLines]
      | some c =>
        dsimp only
        rw [ih (some c) (buf ++ [ln]) hcl]
        obtain ⟨lvl, title⟩ := c
        simp [flushSec, secLines]

/-! ### C4: section splitter reconstruction -/

/-- C4, counterexample.  Reconstructing the heading line from the parsed
level and title cannot restore whitespace the parser normalized away:
for the document `"# a "` the only section is `(1, "a", [])`, whose
rebuilt heading line `"# a"` differs from the original line `"# a "`,
so the reconstruction is not line-for-line equal to the document. -/
theorem sections_reconstruct_cex :
    split_markdown_sections (str "# a ") = [(1, str "a", [])] ∧
      ((split_markdown_sections (str "# a ")).map secLines).flatten = [str "# a"] ∧
      splitlines (str "# a ") = [str "# a "] ∧
      ([str "# a"] : List Line) ≠ [str "# a "] := by
  refine ⟨by decide, by decide, by decide, by decide⟩

/-- C4, amended.  For every document whose heading lines are canonical —
each line that parses as a heading is exactly `"#" * level + " " +
title` with an already-trimmed title — concatenating, per section in
order, the heading line rebuilt from level and title (no heading line
for the synthetic level-0 preamble section) followed by the body lines
reconstructs the document line for line.  For non-canonical heading
lines only the whitespace around the title can differ. -/
theorem sections_reconstruct (md : List Char)
    (hcanon : ∀ ln ∈ splitlines md, canonHeadingB ln = true) :
    ((split_markdown_sections md).map secLines).flatten = splitlines md := by
  unfold split_markdown_sections
  rw [smsLoop_recon (splitlines md) none [] hcanon]
  rfl

/-- Witness for C4 at a concrete canonical document. -/
theorem sections_reconstruct_witness :
    ((split_markdown_sections (str "intro\n# T\nbody\n\n## S2\nx")).map
        secLines).flatten = splitlines (str "intro\n# T\nbody\n\n## S2\nx") :=
  sections_reconstruct (str "intro\n# T\nbody\n\n## S2\nx") (by decide)


theorem renumLines_inside (ls : List Line) :
    ∀ (ic : Bool) (counters : Nat → Nat) (active : Option Nat),
      (renumLines ic counters active ls).length = ls.length ∧
      ∀ i, (insideCode ic ls).getD i false = true →
        (renumLines ic counters active ls).getD i [] = ls.getD i [] := by
  induction ls with
  | nil => intro ic counters active; exact ⟨rfl, fun i h => by simp [insideCode] at h⟩
  | cons l ls ih =>
    intro ic counters active
    by_cases hf : fenceLine l = true
    · simp only [renumLines, insideCode, hf, if_pos]
      refine ⟨by simp [(ih (!ic) counters active).1], ?_⟩
      intro i hi
      cases i with
      | zero => simp at hi
      | succ j =>
        simp only [List.getD_cons_succ] at hi ⊢
        exact (ih (!ic) counters active).2 j hi
    · cases ic with
      | true =>
        simp only [renumLines, insideCode, hf, Bool.false_eq_true, if_false, if_pos]
        refine ⟨by simp [(ih true counters active).1], ?_⟩
        intro i hi
        cases i with
        | zero => simp
        | succ j =>
          simp only [List.getD_cons_succ] at hi ⊢
          exact (ih true counters active).2 j hi
      | false =>
        have hlen : ∀ (cs : Nat → Nat) (a : Option Nat),
            (renumLines false cs a ls).length = ls.length := fun cs a => (ih false cs a).1
        have hins : ∀ (cs : Nat → Nat) (a : Option Nat) i,
            (insideCode false ls).getD i false = true →
            (renumLines false cs a ls).getD i [] = ls.getD i [] :=
          fun cs a => (ih false cs a).2
        simp only [renumLines, insideCode, hf, Bool.false_eq_true, if_false]
        cases hn : numMatch l with
        | some p =>
          obtain ⟨indent, content⟩ := p
          dsimp only
          by_cases ha : (active = some indent)
          · rw [if_pos ha]
            refine ⟨by simp [hlen], ?_⟩
            intro i hi
            cases i with
            | zero => simp at hi
            | succ j =>
              simp only [List.getD_cons_succ] at hi ⊢
              exact hins _ _ j hi
          · rw [if_neg ha]
            refine ⟨by simp [hlen], ?_⟩
            intro i hi
            cases i with
            | zero => simp at hi
            | succ j =>
              simp only [List.getD_cons_succ] at hi ⊢
              exact hins _ _ j hi
        | none =>
          dsimp only
          refine ⟨by simp [hlen], ?_⟩
          intro i hi
          cases i with
          | zero => simp at hi
          | succ j =>
            simp only [List.getD_cons_succ] at hi ⊢
            exact hins _ _ j hi

theorem stripBoldLines_inside (ls : List Line) :
    ∀ ic : Bool,
      (stripBoldLines ic ls).length = ls.length ∧
      ∀ i, (insideCode ic ls).getD i false = true →
        (stripBoldLines ic ls).getD i [] = ls.getD i [] := by
  induction ls with
  | nil => intro ic; exact ⟨rfl, fun i h => by simp [insideCode] at h⟩
  | cons l ls ih =>
    intro ic
    by_cases hf : fenceLine l = true
    · simp only [stripBoldLines, insideCode, hf, if_pos]
      refine ⟨by simp [(ih (!ic)).1], ?_⟩
      intro i hi
      cases i with
      | zero => simp at hi
      | succ j =>
        simp only [List.getD_cons_succ] at hi ⊢
        exact (ih (!ic)).2 j hi
    · cases ic with
      | true =>
        simp only [stripBoldLines, insideCode, hf, Bool.false_eq_true, if_false, if_pos]
        refine ⟨by simp [(ih true).1], ?_⟩
        intro i hi
        cases i with
        | zero => simp
        | succ j =>
          simp only [List.getD_cons_succ] at hi ⊢
          exact (ih true).2 j hi
      | false =>
        simp only [stripBoldLines, insideCode, hf, Bool.false_eq_true, if_false]
        refine ⟨by simp [(ih false).1], ?_⟩
        intro i hi
        cases i with
        | zero => simp at hi
        | succ j =>
          simp only [List.getD_cons_succ] at hi ⊢
          exact (ih false).2 j hi

/-! ### C3: do the cleaning passes leave fenced code blocks alone? -/

/-- C3, counterexample.  `clean_markdown` is not fence-aware: on
`"```\n#x\n```"` the line `"#x"`, which lies inside the fenced code
block, is rewritten to `"# x"` (and a blank line is inserted), so the
cleaning transformations do not all leave fenced lines unchanged. -/
theorem clean_markdown_alters_fenced_cex :
    clean_markdown (str "```\n#x\n```") = str "```\n\n# x\n```" ∧
      insideCode false (splitlines (str "```\n#x\n```")) = [false, true, false] ∧
      (splitlines (str "```\n#x\n```")).getD 1 [] = str "#x" ∧
      str "#x" ∉ splitlines (clean_markdown (str "```\n#x\n```")) := by
  refine ⟨by decide, by decide, by decide, by decide⟩

/-- C3, amended.  Of the three cleaning transformations only
`renumber_ordered_lists` and `strip_bold_emphasis` preserve the lines
inside fenced code blocks: each computes its output as a per-line pass
that returns in-fence lines verbatim, followed by a single whole-text
trim; `clean_markdown` applies its regexes to fenced content as well
and can alter it. -/
theorem fenced_lines_preserved (md : List Char) (hne : md ≠ []) :
    ∃ rOut sOut : List Line,
      renumber_ordered_lists md = pyStrip (joinNl rOut) ∧
      strip_bold_emphasis md = pyStrip (joinNl sOut) ∧
      rOut.length = (splitlines md).length ∧
      sOut.length = (splitlines md).length ∧
      ∀ i, (insideCode false (splitlines md)).getD i false = true →
        rOut.getD i [] = (splitlines md).getD i [] ∧
        sOut.getD i [] = (splitlines md).getD i [] := by
  refine ⟨renumLines false (fun _ => 0) none (splitlines md),
    stripBoldLines false (splitlines md), ?_, ?_, ?_, ?_, ?_⟩
  · unfold renumber_ordered_lists
    rw [if_neg hne]
  · unfold strip_bold_emphasis
    rw [if_neg hne]
  · exact (renumLines_inside (splitlines md) false (fun _ => 0) none).1
  · exact (stripBoldLines_inside (splitlines md) false).1
  · intro i hi
    exact ⟨(renumLines_inside (splitlines md) false (fun _ => 0) none).2 i hi,
      (stripBoldLines_inside (splitlines md) false).2 i hi⟩

/-- Witness for C3 at a concrete document with a fenced block. -/
theorem fenced_lines_preserved_witness :
    ∃ rOut sOut : List Line,
      renumber_ordered_lists (str "1. a\n```\n1. keep\n**keep**\n```") =
        pyStrip (joinNl rOut) ∧
      strip_bold_emphasis (str "1. a\n```\n1. keep\n**keep**\n```") =
        pyStrip (joinNl sOut) ∧
      rOut.length = (splitlines (str "1. a\n```\n1. keep\n**keep**\n```")).length ∧
      sOut.length = (splitlines (str "1. a\n```\n1. keep\n**keep**\n```")).length ∧
      ∀ i, (insideCode false (splitlines (str "1. a\n```\n1. keep\n**keep**\n```"))).getD
          i false = true →
        rOut.getD i [] =
          (splitlines (str "1. a\n```\n1. keep\n**keep**\n```")).getD i [] ∧
        sOut.getD i [] =
          (splitlines (str "1. a\n```\n1. keep\n**keep**\n```")).getD i [] :=
  fenced_lines_preserved (str "1. a\n```\n1. keep\n**keep**\n```") (by decide)


theorem etLoop_noTable (fuel : Nat) :
    ∀ (i : Nat) (ls : List Line), noTableStartB ls = true → etLoop fuel i ls = [] := by
  induction fuel with
  | zero => intro i ls _; rfl
  | succ fuel ih =>
    intro i ls hno
    match ls with
    | [] => rfl
    | [h] => rfl
    | h :: s :: rest =>
      unfold noTableStartB at hno
      rw [Bool.and_eq_true] at hno
      unfold etLoop
      rw [Bool.not_eq_true' ] at hno
      rw [hno.1]
      simp only [Bool.false_eq_true, if_false]
      exact ih (i + 1) (s :: rest) hno.2

/-! ### C10: no single-column table detection -/

/-- C10.  The alignment-separator regex requires at least two
pipe-delimited dash runs, so a one-column pipe table is never detected:
whenever no two consecutive lines form a table start (pipe-containing
line followed by an alignment row), `extract_tables` returns the text
unchanged with an empty table list; the one-column separator `"| --- |"`
does not match the alignment pattern, and the one-column table
`"| X |\n| --- |\n| 1 |"` passes through unchanged. -/
theorem single_column_table_not_detected :
    (∀ md : List Char, noTableStartB (splitlines md) = true →
      extract_tables md = (md, [])) ∧
    alignMatch (str "| --- |") = false ∧
    extract_tables (str "| X |\n| --- |\n| 1 |") =
      (str "| X |\n| --- |\n| 1 |", []) := by
  refine ⟨?_, by decide, by decide⟩
  intro md hno
  by_cases hmd : md = []
  · simp [extract_tables, hmd]
  · unfold extract_tables
    rw [if_neg hmd]
    simp only
    rw [etLoop_noTable _ _ _ hno]
    simp

/-- Witness for C10: the general no-detection statement applied to the
concrete one-column table. -/
theorem single_column_table_not_detected_witness :
    extract_tables (str "| X |\n| --- |\n| 1 |") =
      (str "| X |\n| --- |\n| 1 |", []) :=
  single_column_table_not_detected.1 (str "| X |\n| --- |\n| 1 |") (by decide)


theorem digitChar_val (d : Nat) (h : d < 10) : (Nat.digitChar d).toNat = 48 + d := by
  interval_cases d <;> rfl

theorem charsToNat_append_digit (xs : List Char) (c : Char) :
    charsToNat (xs ++ [c]) = 10 * charsToNat xs + (c.toNat - 48) := by
  unfold charsToNat
  rw [List.foldl_append]
  simp [Nat.mul_comm]

theorem natCharsAux_zero (fuel : Nat) : natCharsAux fuel 0 = [] := by
  cases fuel <;> rfl

theorem natCharsAux_val (fuel : Nat) :
    ∀ n, 0 < n → n ≤ fuel → charsToNat (natCharsAux fuel n) = n := by
  induction fuel with
  | zero => intro n h1 h2; omega
  | succ fuel ih =>
    intro n h1 h2
    unfold natCharsAux
    rw [if_neg (by omega)]
    rw [charsToNat_append_digit]
    have hm : n % 10 < 10 := Nat.mod_lt _ (by omega)
    rw [digitChar_val _ hm]
    by_cases hq : n / 10 = 0
    · rw [hq, natCharsAux_zero]
      have hn10 : n < 10 := by omega
      unfold charsToNat
      simp
      omega
    · rw [ih (n / 10) (by omega) (by omega)]
      omega

theorem natChars_val (n : Nat) : charsToNat (natChars n) = n := by
  unfold natChars
  by_cases h : n = 0
  · subst h; decide
  · rw [if_neg h]
    exact natCharsAux_val n n (by omega) (le_refl n)

theorem natChars_inj (a b : Nat) (h : natChars a = natChars b) : a = b := by
  have := natChars_val a
  rw [h, natChars_val b] at this
  omega

theorem exists_fresh_suffix (k : List Char) (seen : List (List Char)) :
    ∃ j, 2 ≤ j ∧ j < seen.length + 4 ∧ (k ++ '_' :: natChars j) ∉ seen := by
  by_contra hcon
  push_neg at hcon
  have hsub : (Finset.Ico 2 (seen.length + 4)).image
      (fun j => k ++ '_' :: natChars j) ⊆ seen.toFinset := by
    intro x hx
    simp only [Finset.mem_image, Finset.mem_Ico] at hx
    obtain ⟨j, ⟨hj1, hj2⟩, rfl⟩ := hx
    exact List.mem_toFinset.mpr (hcon j hj1 hj2)
  have hinj : Set.InjOn (fun j => k ++ '_' :: natChars j)
      (Finset.Ico 2 (seen.length + 4) : Finset Nat) := by
    intro a _ b _ hab
    simp only [List.append_cancel_left_eq, List.cons.injEq, true_and] at hab
    exact natChars_inj a b hab
  have hcard := Finset.card_le_card hsub
  rw [Finset.card_image_of_injOn hinj, Nat.card_Ico] at hcard
  have := List.toFinset_card_le seen
  omega

theorem keySuffix_not_mem (k : List Char) (seen : List (List Char)) :
    ∀ (fuel c : Nat), (∃ j, c ≤ j ∧ j < c + fuel + 1 ∧ (k ++ '_' :: natChars j) ∉ seen) →
      keySuffix k seen fuel c ∉ seen := by
  intro fuel
  induction fuel with
  | zero =>
    intro c ⟨j, hj1, hj2, hj3⟩
    unfold keySuffix
    have : j = c := by omega
    subst this
    exact hj3
  | succ fuel ih =>
    intro c ⟨j, hj1, hj2, hj3⟩
    unfold keySuffix
    by_cases hc : (k ++ '_' :: natChars c) ∈ seen
    · rw [if_pos hc]
      apply ih (c + 1)
      have hjc : j ≠ c := fun he => hj3 (by rw [he]; exact hc)
      exact ⟨j, by omega, by omega, hj3⟩
    · rw [if_neg hc]
      exact hc

theorem buildKeys_spec (hs : List (List Char)) :
    ∀ seen, (buildKeys seen hs).Nodup ∧ ∀ x ∈ buildKeys seen hs, x ∉ seen := by
  induction hs with
  | nil => intro seen; exact ⟨List.nodup_nil, by simp [buildKeys]⟩
  | cons h t ih =>
    intro seen
    unfold buildKeys
    dsimp only
    generalize normalize_key h = k
    by_cases hmem : k ∈ seen
    · rw [if_pos hmem]
      set k2 := keySuffix k seen (seen.length + 1) 2 with hk2
      have hfresh : k2 ∉ seen := by
        apply keySuffix_not_mem
        obtain ⟨j, hj1, hj2, hj3⟩ := exists_fresh_suffix k seen
        exact ⟨j, hj1, by omega, hj3⟩
      obtain ⟨hnd, hnin⟩ := ih (k2 :: seen)
      constructor
      · refine List.Nodup.cons ?_ hnd
        intro hcontra
        exact hnin k2 hcontra (List.mem_cons_self _ _)
      · intro x hx
        rcases List.mem_cons.mp hx with rfl | hx2
        · exact hfresh
        · exact fun hxs => hnin x hx2 (List.mem_cons_of_mem _ hxs)
    · rw [if_neg hmem]
      obtain ⟨hnd, hnin⟩ := ih (k :: seen)
      constructor
      · refine List.Nodup.cons ?_ hnd
        intro hcontra
        exact hnin k hcontra (List.mem_cons_self _ _)
      · intro x hx
        rcases List.mem_cons.mp hx with rfl | hx2
        · exact hmem
        · exact fun hxs => hnin x hx2 (List.mem_cons_of_mem _ hxs)

theorem padTrunc_length (r : List (List Char)) (n : Nat) :
    (padTrunc r n).length = n := by
  unfold padTrunc
  by_cases h1 : r.length < n
  · rw [if_pos h1]
    simp
    omega
  · rw [if_neg h1]
    by_cases h2 : r.length > n
    · rw [if_pos h2]
      simp
      omega
    · rw [if_neg h2]
      omega

theorem mkRow_fst (keys : List (List Char)) (r : List (List Char)) :
    (mkRow keys r).map Prod.fst = keys := by
  unfold mkRow
  apply List.map_fst_zip
  rw [List.length_map, padTrunc_length]

theorem etLoop_shape (fuel : Nat) :
    ∀ (i : Nat) (ls : List Line) (t : MTable), t ∈ etLoop fuel i ls →
      t.headers = buildKeys [] t.headers_raw ∧
      ∀ r ∈ t.rows, ∃ r0, r = mkRow t.headers r0 := by
  induction fuel with
  | zero => intro i ls t ht; cases ht
  | succ fuel ih =>
    intro i ls t ht
    match ls with
    | [] => cases ht
    | [h] => cases ht
    | h :: s :: rest =>
      unfold etLoop at ht
      by_cases h1 : (hasPipe h && alignMatch s) = true
      · rw [if_pos h1] at ht
        by_cases h2 : (!(split_md_row h).isEmpty &&
            !(rest.takeWhile rowCond).isEmpty) = true
        · simp only [h2, if_pos] at ht
          rcases List.mem_cons.mp ht with rfl | ht2
          · refine ⟨rfl, ?_⟩
            intro r hr
            simp only [List.mem_map] at hr
            obtain ⟨r0, _, rfl⟩ := hr
            exact ⟨r0, rfl⟩
          · exact ih _ _ t ht2
        · simp only [h2, Bool.false_eq_true, if_false] at ht
          exact ih _ _ t ht
      · rw [if_neg h1] at ht
        exact ih _ _ t ht

/-! ### C8: table keys are unique, rows are reconciled -/

/-- C8.  In every table produced by `extract_tables` the derived column
keys are pairwise distinct (collisions get `_2`, `_3`, … suffixes that
are checked against all keys seen so far), and every row object carries
exactly the column keys, in order — short rows having been padded with
empty strings and long rows truncated.  In particular the table
`"| Name | Age |" / "| --- | --- |" / "| Alice | 30 |"` yields keys
`["name", "age"]` with the single row `[("name", "Alice"),
("age", "30")]`, and the duplicate header pair `"Name", "Name"` yields
keys `["name", "name_2"]`. -/
theorem table_keys_unique_rows_aligned :
    (∀ (md : List Char) (t : MTable), t ∈ (extract_tables md).2 →
      t.headers.Nodup ∧ ∀ r ∈ t.rows, r.map Prod.fst = t.headers) ∧
    (extract_tables (str "| Name | Age |\n| --- | --- |\n| Alice | 30 |")).2.map
        (fun t => (t.headers, t.rows)) =
      [([str "name", str "age"],
        [[(str "name", str "Alice"), (str "age", str "30")]])] ∧
    (extract_tables (str "| Name | Name |\n| --- | --- |\n| a | b |")).2.map
        (fun t => t.headers) = [[str "name", str "name_2"]] := by
  refine ⟨?_, by decide, by decide⟩
  intro md t ht
  have hshape : t.headers = buildKeys [] t.headers_raw ∧
      ∀ r ∈ t.rows, ∃ r0, r = mkRow t.headers r0 := by
    unfold extract_tables at ht
    by_cases hmd : md = []
    · rw [if_pos hmd] at ht
      cases ht
    · rw [if_neg hmd] at ht
      simp only at ht
      by_cases he : (etLoop (splitlines md).length 0 (splitlines md)).isEmpty = true
      · rw [if_pos he] at ht
        cases ht
      · rw [if_neg he] at ht
        exact etLoop_shape _ _ _ t ht
  constructor
  · rw [hshape.1]
    exact (buildKeys_spec t.headers_raw []).1
  · intro r hr
    obtain ⟨r0, rfl⟩ := hshape.2 r hr
    exact mkRow_fst _ _

/-- Witness for C8: the general statement applied to the concrete
`Name`/`Age` table. -/
theorem table_keys_unique_rows_aligned_witness :
    ∀ t ∈ (extract_tables (str "| Name | Age |\n| --- | --- |\n| Alice | 30 |")).2,
      t.headers.Nodup ∧ ∀ r ∈ t.rows, r.map Prod.fst = t.headers := by
  intro t ht
  exact table_keys_unique_rows_aligned.1 _ t ht


theorem bufSize_append (a b : List (List Char)) :
    bufSize (a ++ b) = bufSize a + bufSize b := by
  unfold bufSize
  rw [List.map_append, List.sum_append]

theorem chunkLoop_single (target overlap : Nat) :
    ∀ (ps buf : List (List Char)) (size : Nat) (start : Int),
      size = bufSize buf → size + bufSize ps ≤ target →
      chunkLoop target overlap ps buf size start =
        if (buf ++ ps).isEmpty then []
        else [⟨pyStrip (joinPP (buf ++ ps)), start,
          start + (pyStrip (joinPP (buf ++ ps))).length⟩] := by
  intro ps
  induction ps with
  | nil =>
    intro buf size start hsize hbudget
    unfold chunkLoop
    simp
  | cons p ps ih =>
    intro buf size start hsize hbudget
    have hps : bufSize (p :: ps) = (p.length + 2) + bufSize ps := by
      unfold bufSize
      simp
    unfold chunkLoop
    dsimp only
    have h1 : decide (size + (p.length + 2) > target) = false :=
      decide_eq_false (by omega)
    rw [h1, Bool.false_and]
    simp only [Bool.false_eq_true, if_false]
    rw [ih (buf ++ [p]) (size + (p.length + 2)) start
      (by rw [bufSize_append, ← hsize]; rfl) (by omega)]
    rw [List.append_assoc]
    rfl

/-! ### C6: chunker edge cases -/

/-- C6, counterexample.  Empty input does give a single empty chunk, but
a non-empty input shorter than `target_chars` need not give exactly one
chunk: the blank document `"\n"` (length 1) yields zero chunks, and
`"a\n\nb"` (length 4) with `target_chars = 5` yields two chunks, because
the size accounting adds two separator characters per paragraph. -/
theorem chunk_single_cex :
    (chunk_markdown (str "\n") 5500 400).length = 0 ∧
      str "\n" ≠ [] ∧ (str "\n").length < 5500 ∧
      (chunk_markdown (str "a\n\nb") 5 0).length = 2 ∧
      str "a\n\nb" ≠ [] ∧ (str "a\n\nb").length < 5 := by
  refine ⟨by decide, by decide, by decide, by decide, by decide, by decide⟩

/-- C6, amended.  Empty input yields exactly the single chunk
`("", 0, 0)`.  A non-empty input yields exactly one chunk when it
contains at least one non-blank line (so the paragraph list is
non-empty) and the paragraphs' buffered size — each paragraph's length
plus a 2-character separator allowance — fits within `target_chars`;
that chunk is the trimmed paragraph-joined text with span
`[0, length)`.  (The original bound `len(md) < target_chars` is not
sufficient, and blank non-empty inputs yield no chunk at all.) -/
theorem chunk_single_amended :
    (∀ target overlap : Nat, chunk_markdown [] target overlap = [⟨[], 0, 0⟩]) ∧
    (∀ (md : List Char) (target overlap : Nat),
      md ≠ [] →
      split_by_paragraph md ≠ [] →
      bufSize (split_by_paragraph md) ≤ target →
      chunk_markdown md target overlap =
        [⟨pyStrip (joinPP (split_by_paragraph md)), 0,
          (pyStrip (joinPP (split_by_paragraph md))).length⟩]) := by
  constructor
  · intro target overlap
    rfl
  · intro md target overlap hmd hpar hbudget
    unfold chunk_markdown
    rw [if_neg hmd]
    rw [chunkLoop_single target overlap (split_by_paragraph md) [] 0 0 rfl
      (by simpa using hbudget)]
    rw [List.nil_append]
    rw [if_neg (by simpa using hpar)]
    norm_num

/-- Witness for C6 on a concrete small document. -/
theorem chunk_single_amended_witness :
    chunk_markdown (str "hello world\n\nsecond") 5500 400 =
      [⟨pyStrip (joinPP (split_by_paragraph (str "hello world\n\nsecond"))), 0,
        (pyStrip (joinPP (split_by_paragraph (str "hello world\n\nsecond")))).length⟩] :=
  chunk_single_amended.2 (str "hello world\n\nsecond") 5500 400
    (by decide) (by decide) (by decide)


theorem pyStrip_fix (l : List Char) (hne : l ≠ [])
    (hh : isPyWs (l.headD ' ') = false) (hl : isPyWs (l.getLastD ' ') = false) :
    pyStrip l = l := by
  unfold pyStrip dropEndP
  have h1 : l.dropWhile isPyWs = l := by
    cases l with
    | nil => rfl
    | cons c cs =>
      rw [List.dropWhile_cons, if_neg]
      simp only [List.headD_cons] at hh
      simp [hh]
  rw [h1]
  have h2 : l.reverse.dropWhile isPyWs = l.reverse := by
    cases hr : l.reverse with
    | nil => rfl
    | cons c cs =>
      have hlast : l.getLast? = some c := by
        rw [← List.head?_reverse, hr, List.head?_cons]
      have hcl : isPyWs c = false := by
        rw [List.getLastD_eq_getLast?, hlast] at hl
        simpa using hl
      rw [List.dropWhile_cons, if_neg]
      simp [hcl]
  rw [h2, List.reverse_reverse]

theorem goodParaB_parts (p : List Char) (h : goodParaB p = true) :
    p ≠ [] ∧ isPyWs (p.headD ' ') = false ∧ isPyWs (p.getLastD ' ') = false := by
  unfold goodParaB at h
  simp only [Bool.and_eq_true, Bool.not_eq_true'] at h
  refine ⟨?_, h.1.2, h.2⟩
  simpa using h.1.1

theorem joinPP_good (buf : List (List Char)) (hne : buf ≠ [])
    (hg : ∀ p ∈ buf, goodParaB p = true) :
    joinPP buf ≠ [] ∧ isPyWs ((joinPP buf).headD ' ') = false ∧
      isPyWs ((joinPP buf).getLastD ' ') = false := by
  induction buf with
  | nil => cases hne rfl
  | cons p rest ih =>
    obtain ⟨hp, hph, hpl⟩ := goodParaB_parts p (hg p (List.mem_cons_self _ _))
    cases rest with
    | nil => exact ⟨hp, hph, hpl⟩
    | cons q rest2 =>
      have ihr := ih (by simp) (fun x hx => hg x (List.mem_cons_of_mem _ hx))
      have hjoin : joinPP (p :: q :: rest2) = p ++ '\n' :: '\n' :: joinPP (q :: rest2) := rfl
      rw [hjoin]
      refine ⟨by simp [hp], ?_, ?_⟩
      · cases p with
        | nil => cases hp rfl
        | cons a t =>
          simpa using hph
      · have hlast : (p ++ '\n' :: '\n' :: joinPP (q :: rest2)).getLast? =
            (joinPP (q :: rest2)).getLast? := by
          rw [List.getLast?_append_of_ne_nil _ (by simp)]
          have h0 : '\n' :: '\n' :: joinPP (q :: rest2) =
              ['\n', '\n'] ++ joinPP (q :: rest2) := rfl
          rw [h0, List.getLast?_append_of_ne_nil _ ihr.1]
        rw [List.getLastD_eq_getLast?, hlast, ← List.getLastD_eq_getLast?]
        exact ihr.2.2

theorem strip_joinPP_fix (buf : List (List Char)) (hne : buf ≠ [])
    (hg : ∀ p ∈ buf, goodParaB p = true) :
    pyStrip (joinPP buf) = joinPP buf := by
  obtain ⟨h1, h2, h3⟩ := joinPP_good buf hne hg
  exact pyStrip_fix _ h1 h2 h3

theorem joinPP_append (a b : List (List Char)) (ha : a ≠ []) (hb : b ≠ []) :
    joinPP (a ++ b) = joinPP a ++ '\n' :: '\n' :: joinPP b := by
  induction a with
  | nil => cases ha rfl
  | cons p rest ih =>
    cases rest with
    | nil =>
      cases b with
      | nil => cases hb rfl
      | cons q bs => rfl
    | cons q rest2 =>
      have h1 : joinPP ((p :: q :: rest2) ++ b) =
          p ++ '\n' :: '\n' :: joinPP ((q :: rest2) ++ b) := rfl
      have h2 : joinPP (p :: q :: rest2) = p ++ '\n' :: '\n' :: joinPP (q :: rest2) := rfl
      rw [h1, h2, ih (by simp)]
      simp

theorem bufSize_joinPP (ovl : List (List Char)) (hne : ovl ≠ []) :
    bufSize ovl = (joinPP ovl).length + 2 := by
  induction ovl with
  | nil => cases hne rfl
  | cons p rest ih =>
    cases rest with
    | nil =>
      unfold bufSize joinPP
      simp
    | cons q rest2 =>
      have h2 : joinPP (p :: q :: rest2) = p ++ '\n' :: '\n' :: joinPP (q :: rest2) := rfl
      have hb : bufSize (p :: q :: rest2) = (p.length + 2) + bufSize (q :: rest2) := by
        unfold bufSize; simp
      rw [hb, ih (by simp), h2]
      simp
      omega

theorem backAux_decomp (overlap : Nat) :
    ∀ (rs acc : List (List Char)) (n : Nat),
      ∃ pfx rest2, rs = pfx ++ rest2 ∧ backAux overlap acc n rs = pfx.reverse ++ acc := by
  intro rs
  induction rs with
  | nil => intro acc n; exact ⟨[], [], rfl, rfl⟩
  | cons q qs ih =>
    intro acc n
    unfold backAux
    by_cases hc : (decide (n + (q.length + 2) > overlap) && !acc.isEmpty) = true
    · rw [if_pos hc]
      exact ⟨[], q :: qs, rfl, rfl⟩
    · rw [if_neg hc]
      obtain ⟨pfx, rest2, hrs, hres⟩ := ih (q :: acc) (n + (q.length + 2))
      refine ⟨q :: pfx, rest2, by rw [hrs]; rfl, ?_⟩
      rw [hres]
      simp

theorem backAux_overlap_decomp (overlap : Nat) (buf : List (List Char)) (hne : buf ≠ []) :
    ∃ pre, buf = pre ++ backAux overlap [] 0 buf.reverse ∧
      backAux overlap [] 0 buf.reverse ≠ [] := by
  cases hrev : buf.reverse with
  | nil =>
    exfalso
    apply hne
    have := congrArg List.reverse hrev
    simpa using this
  | cons q qs =>
    unfold backAux
    have hc : (decide (0 + (q.length + 2) > overlap) && !(List.isEmpty ([] : List (List Char)))) = false := by
      simp
    rw [hc]
    simp only [Bool.false_eq_true, if_false]
    obtain ⟨pfx, rest2, hqs, hres⟩ := backAux_decomp overlap qs [q] (0 + (q.length + 2))
    rw [hres]
    refine ⟨rest2.reverse, ?_, by simp⟩
    have hbuf : buf = (q :: qs).reverse := by
      have := congrArg List.reverse hrev
      simpa using this
    rw [hbuf, hqs]
    simp


theorem covers_dedup (paras : List (List Char)) (cs : List Chunk)
    (h : Covers paras cs) : dedupConcat cs = joinPP paras := by
  induction h with
  | single paras c hne htext hstop =>
    simpa [dedupConcat] using htext
  | step pre ovl rest c c' cs hovl hrest htext hstop hstart hcov ih =>
    have hbs := bufSize_joinPP ovl hovl
    have hdrop : (c.stop - c'.start - 2).toNat = (joinPP ovl).length := by
      rw [hstart, hbs]
      omega
    have h1 : dedupConcat (c :: c' :: cs) =
        c.text ++ (dedupConcat (c' :: cs)).drop (c.stop - c'.start - 2).toNat := rfl
    rw [h1, hdrop, ih, htext]
    rw [joinPP_append ovl rest hovl hrest]
    have h2 : joinPP ovl ++ '\n' :: '\n' :: joinPP rest =
        joinPP ovl ++ ('\n' :: '\n' :: joinPP rest) := rfl
    rw [h2, List.drop_left]
    have hpreovl : pre ++ ovl ≠ [] := by simp [hovl]
    have h3 : pre ++ (ovl ++ rest) = (pre ++ ovl) ++ rest := by simp
    rw [h3, joinPP_append (pre ++ ovl) rest hpreovl hrest]

theorem offsetsOK_cons (c c' : Chunk) (cs : List Chunk)
    (h1 : ∃ v w u, c'.text = v ++ '\n' :: '\n' :: w ∧ c.text = u ++ v ∧ v ≠ [] ∧
      c'.start = c.stop - (v.length + 2))
    (h2 : offsetsOK (c' :: cs)) : offsetsOK (c :: c' :: cs) := by
  unfold offsetsOK
  exact ⟨h1, h2⟩

theorem chunkLoop_covers (target overlap : Nat) :
    ∀ (ps buf : List (List Char)) (size : Nat) (start : Int),
      (∀ p ∈ ps, goodParaB p = true) →
      (∀ p ∈ buf, goodParaB p = true) →
      buf ≠ [] → size = bufSize buf →
      ∃ c cs', chunkLoop target overlap ps buf size start = c :: cs' ∧
        c.start = start ∧
        (∃ taken tl, ps = taken ++ tl ∧ c.text = joinPP (buf ++ taken)) ∧
        Covers (buf ++ ps) (c :: cs') ∧
        offsetsOK (c :: cs') := by
  intro ps
  induction ps with
  | nil =>
    intro buf size start hgps hgbuf hne hsize
    have hstrip := strip_joinPP_fix buf hne hgbuf
    have hb : buf.isEmpty = false := by simpa using hne
    refine ⟨⟨joinPP buf, start, start + (joinPP buf).length⟩, [], ?_, rfl,
      ⟨[], [], rfl, by rw [List.append_nil]⟩, ?_, trivial⟩
    · unfold chunkLoop
      rw [hb]
      simp only [Bool.false_eq_true, if_false]
      rw [hstrip]
    · rw [List.append_nil]
      exact Covers.single buf _ hne rfl rfl
  | cons p ps ih =>
    intro buf size start hgps hgbuf hne hsize
    have hgp : goodParaB p = true := hgps p (List.mem_cons_self _ _)
    have hgps' : ∀ q ∈ ps, goodParaB q = true :=
      fun q hq => hgps q (List.mem_cons_of_mem _ hq)
    have hstrip := strip_joinPP_fix buf hne hgbuf
    unfold chunkLoop
    dsimp only
    rw [hstrip]
    by_cases hcl : (decide (size + (p.length + 2) > target) && decide (0 < size)) = true
    · rw [if_pos hcl]
      obtain ⟨pre, hbuf, hovl⟩ := backAux_overlap_decomp overlap buf hne
      generalize hgen : backAux overlap [] 0 buf.reverse = ovl at hbuf hovl ⊢
      have hgovl : ∀ q ∈ ovl, goodParaB q = true := by
        intro q hq
        exact hgbuf q (by rw [hbuf]; exact List.mem_append_right _ hq)
      have hgbuf' : ∀ q ∈ ovl ++ [p], goodParaB q = true := by
        intro q hq
        rcases List.mem_append.mp hq with h | h
        · exact hgovl q h
        · simp at h
          subst h
          exact hgp
      have hsize' : bufSize ovl + (p.length + 2) = bufSize (ovl ++ [p]) := by
        rw [bufSize_append]
        unfold bufSize
        simp
      obtain ⟨c', cs'', heq, hstart', ⟨taken', tl', htk, htext'⟩, hcov', hoff'⟩ :=
        ih (ovl ++ [p]) (bufSize ovl + (p.length + 2))
          (start + ((joinPP buf).length : Int) - bufSize ovl)
          hgps' hgbuf' (by simp) hsize'
      rw [heq]
      have hbs := bufSize_joinPP ovl hovl
      have hvne : joinPP ovl ≠ [] := (joinPP_good _ hovl hgovl).1
      have htext2 : c'.text = joinPP ovl ++ '\n' :: '\n' :: joinPP (p :: taken') := by
        rw [htext']
        have ha : (ovl ++ [p]) ++ taken' = ovl ++ (p :: taken') := by simp
        rw [ha, joinPP_append _ _ hovl (by simp)]
      refine ⟨⟨joinPP buf, start, start + (joinPP buf).length⟩, c' :: cs'', rfl, rfl,
        ⟨[], p :: ps, rfl, by rw [List.append_nil]⟩, ?_, ?_, hoff'⟩
      · have hassoc : buf ++ p :: ps = pre ++ (ovl ++ (p :: ps)) := by
          rw [hbuf]
          simp
        rw [hassoc]
        refine Covers.step pre _ (p :: ps) _ c' cs'' hovl (by simp) ?_ rfl ?_ ?_
        · show joinPP buf = joinPP (pre ++ ovl)
          rw [← hbuf]
        · rw [hstart']
        · have hassoc2 : ovl ++ (p :: ps) = (ovl ++ [p]) ++ ps := by simp
          rw [hassoc2]
          exact hcov'
      · have hu : ∃ u, joinPP buf = u ++ joinPP ovl := by
          by_cases hpre : pre = []
          · refine ⟨[], ?_⟩
            rw [hbuf, hpre]
            simp
          · refine ⟨joinPP pre ++ ['\n', '\n'], ?_⟩
            rw [hbuf, joinPP_append pre _ hpre hovl]
            simp
        obtain ⟨u, hu⟩ := hu
        refine ⟨joinPP ovl, joinPP (p :: taken'), u, htext2, by exact hu, hvne, ?_⟩
        rw [hstart', hbs]
        show start + ((joinPP buf).length : Int) - _ = start + _ - _
        push_cast
        ring
    · rw [if_neg hcl]
      have hgbuf' : ∀ q ∈ buf ++ [p], goodParaB q = true := by
        intro q hq
        rcases List.mem_append.mp hq with h | h
        · exact hgbuf q h
        · simp at h
          subst h
          exact hgp
      have hsize' : size + (p.length + 2) = bufSize (buf ++ [p]) := by
        rw [bufSize_append, hsize]
        unfold bufSize
        simp
      obtain ⟨c, cs', heq, hstart', ⟨taken', tl', htk, htext'⟩, hcov', hoff'⟩ :=
        ih (buf ++ [p]) (size + (p.length + 2)) start hgps' hgbuf' (by simp) hsize'
      rw [heq]
      refine ⟨c, cs', rfl, hstart',
        ⟨p :: taken', tl', by rw [htk, List.cons_append], ?_⟩, ?_, hoff'⟩
      · rw [htext']
        have ha : (buf ++ [p]) ++ taken' = buf ++ (p :: taken') := by simp
        rw [ha]
      · have ha : buf ++ p :: ps = (buf ++ [p]) ++ ps := by simp
        rw [ha]
        exact hcov'


/-! ### C1: chunk offsets and reconstruction -/

/-- C1, counterexample.  For `"aaaaa\n\nbbbbb\n\nccccc"` with
`target_chars = 10`, `overlap_chars = 5` the chunker produces spans
`(0, 5), (-2, 10), (3, 15)`: the second chunk starts at `-2`, which is
not `chunk[0].end - len(v)` for any text `v` that is both a suffix of
the first chunk and a prefix of the second (the code subtracts the
buffered size, two separator characters more than the overlap length).
Moreover the trimming of chunk texts breaks exact reconstruction: for
`"  a"` the paragraph-joined source is `"  a"` but the chunk text is the
stripped `"a"`. -/
theorem chunk_offsets_claim_cex :
    (chunk_markdown (str "aaaaa\n\nbbbbb\n\nccccc") 10 5).map
        (fun c => (c.text, c.start, c.stop)) =
      [(str "aaaaa", 0, 5), (str "aaaaa\n\nbbbbb", -2, 10),
       (str "bbbbb\n\nccccc", 3, 15)] ∧
    (∀ v ∈ (str "aaaaa").tails, startsWith v (str "aaaaa\n\nbbbbb") = true →
      (-2 : Int) ≠ 5 - v.length) ∧
    (chunk_markdown (str "  a") 10 5).map (fun c => (c.text, c.start, c.stop)) =
      [(str "a", 0, 1)] ∧
    joinPP (split_by_paragraph (str "  a")) = str "  a" ∧
    dedupConcat (chunk_markdown (str "  a") 10 5) = str "a" ∧
    str "a" ≠ str "  a" := by
  refine ⟨by decide, by decide, by decide, by decide, by decide, by decide⟩

/-- C1, amended.  For inputs whose paragraphs are untouched by trimming
(no paragraph starts or ends with whitespace), the chunker's offsets are
consistent with overlap-deduplicated concatenation in the following
sense: between adjacent chunks the overlapped text `v` (a suffix of the
earlier chunk repeated at the head of the later one, followed by the
blank-line separator) satisfies
`chunk[i+1].start = chunk[i].end - (len(v) + 2)` — the code also
discounts the two separator characters — and concatenating all chunks'
texts with each overlapped prefix removed reconstructs the trimmed
paragraph-joined source text. -/
theorem chunk_offsets_reconstruction (md : List Char) (target overlap : Nat)
    (hgood : ∀ p ∈ split_by_paragraph md, goodParaB p = true) :
    offsetsOK (chunk_markdown md target overlap) ∧
      dedupConcat (chunk_markdown md target overlap) =
        pyStrip (joinPP (split_by_paragraph md)) := by
  by_cases hmd : md = []
  · subst hmd
    exact ⟨trivial, rfl⟩
  · unfold chunk_markdown
    rw [if_neg hmd]
    cases hps : split_by_paragraph md with
    | nil => exact ⟨trivial, rfl⟩
    | cons p ps =>
      rw [hps] at hgood
      have hgp : goodParaB p = true := hgood p (List.mem_cons_self _ _)
      have hgps : ∀ q ∈ ps, goodParaB q = true :=
        fun q hq => hgood q (List.mem_cons_of_mem _ hq)
      have hfalse : (decide (0 + (p.length + 2) > target) && decide ((0 : Nat) < 0)) = false := by
        simp
      have hstep : chunkLoop target overlap (p :: ps) [] 0 0 =
          chunkLoop target overlap ps ([] ++ [p]) (0 + (p.length + 2)) 0 := by
        conv_lhs => rw [chunkLoop]
        rw [hfalse]
        simp only [Bool.false_eq_true, if_false]
      have hsize : (0 : Nat) + (p.length + 2) = bufSize [p] := by
        unfold bufSize
        simp
      obtain ⟨c, cs', heq, hstart, _, hcov, hoff⟩ :=
        chunkLoop_covers target overlap ps ([] ++ [p]) (0 + (p.length + 2)) 0 hgps
          (by intro q hq; simp at hq; subst hq; exact hgp) (by simp) (by simpa using hsize)
      rw [hstep, heq]
      constructor
      · exact hoff
      · have hd := covers_dedup _ _ hcov
        rw [hd]
        have hstrip := strip_joinPP_fix (p :: ps) (by simp) hgood
        rw [hstrip]
        rfl

/-- Witness for C1 on the concrete three-paragraph document. -/
theorem chunk_offsets_reconstruction_witness :
    offsetsOK (chunk_markdown (str "aaaaa\n\nbbbbb\n\nccccc") 10 5) ∧
      dedupConcat (chunk_markdown (str "aaaaa\n\nbbbbb\n\nccccc") 10 5) =
        pyStrip (joinPP (split_by_paragraph (str "aaaaa\n\nbbbbb\n\nccccc"))) :=
  chunk_offsets_reconstruction (str "aaaaa\n\nbbbbb\n\nccccc") 10 5 (by decide)

end App
